import Mathlib

/-!
Verification of the Cut Resolution & Splice Synthesis core of the
silero-scribe-mfa-llm pipeline.

The Python services are shallowly embedded as executable Lean functions:

* `findOutwardZeroCrossing` embeds `AudioEditorService._find_outward_zero_crossing`
  (src/services/audio_editor_service.py, lines 20-35);
* `getCutBoundaries` embeds `AudioEditorService._get_cut_boundaries` (lines 37-85);
* `performDirectCut` embeds `AudioEditorService._perform_direct_cut` (lines 87-93);
* `runEditor` embeds `AudioEditorService.run` (lines 101-190);
* `normalizeWord`, `tokenize` and `syncLoop`/`runParser` embed
  `CutParserService._normalize_word` and `CutParserService.run`
  (src/services/cut_parser_service.py);
* `computeIsUsable`/`processCut`/`processCuts` embed the per-cut loop of
  `PipelineOrchestrator.run` (src/pipeline_orchestrator.py, lines 164-211).

Python floats are modelled by `ℚ`, Python `int()` truncation by `pyTrunc`,
Python strings by `List Char`, pydub `AudioSegment`s by lists of
millisecond frames, and numpy sample arrays by `List ℚ`.  Fallible lookups
(`dict[...]` raising `KeyError`) are modelled with `Option`.
-/

set_option maxRecDepth 100000

/-- A phoneme interval, as produced by `MfaNormalizerService._parse_textgrid`:
`{"text": ..., "start": ..., "end": ...}`. -/
structure Phoneme where
  start : ℚ
  «end» : ℚ
deriving DecidableEq

/-- An aligned word, as produced by `MfaNormalizerService._parse_textgrid`:
`{"id", "word", "start", "end", "is_timestamp_reliable", "phonemes"}`.
The reliability flag is `Option Bool` because `PipelineOrchestrator.run`
reads it with `.get('is_timestamp_reliable', True)`, defaulting when absent. -/
structure AlignedWord where
  id : Nat
  start : ℚ
  «end» : ℚ
  phonemes : List Phoneme
  is_timestamp_reliable : Option Bool
deriving DecidableEq

/-- The `type` field of a Scribe transcript item (`'word'`, `'spacing'`, or
an audio-event marker). -/
inductive ScribeType where
  | word
  | spacing
  | audioEvent
deriving DecidableEq

/-- A canonical Scribe word, as produced by `ScribeNormalizerService.run`:
`{"id", "text", "start", "end", "type"}` (text modelled as `List Char`). -/
structure ScribeWord where
  id : Nat
  text : List Char
  start : ℚ
  «end» : ℚ
  type : ScribeType
deriving DecidableEq

/-- Python `int()` applied to a rational: truncation toward zero. -/
def pyTrunc (q : ℚ) : ℤ := Int.tdiv q.num q.den

/-!
Rational arithmetic is written through the following wrappers, which are
provably equal to the field operations of `ℚ` (see `qadd_eq` etc. below) but
are built on `mkRat` and so reduce inside the kernel, keeping every
embedded function evaluable by `decide` on concrete inputs.
-/

/-- Addition on `ℚ` through `mkRat`. -/
def qadd (a b : ℚ) : ℚ := mkRat (a.num * b.den + b.num * a.den) (a.den * b.den)

/-- Subtraction on `ℚ` through `mkRat`. -/
def qsub (a b : ℚ) : ℚ := mkRat (a.num * b.den - b.num * a.den) (a.den * b.den)

/-- Multiplication on `ℚ` through `mkRat`. -/
def qmul (a b : ℚ) : ℚ := mkRat (a.num * b.num) (a.den * b.den)

/-- The rational `n / d` for integer `n`, `d` (zero when `d = 0`). -/
def intRat (n d : ℤ) : ℚ := if d < 0 then mkRat (-n) (-d).toNat else mkRat n d.toNat

/-- Division on `ℚ` through `mkRat` (zero when `b = 0`, as in `ℚ`). -/
def qdiv (a b : ℚ) : ℚ := intRat (a.num * b.den) (a.den * b.num)

/-- `max` on `ℚ` through its order instance. -/
def qmax (a b : ℚ) : ℚ := if a ≤ b then b else a

/-- `min` on `ℚ` through its order instance. -/
def qmin (a b : ℚ) : ℚ := if a ≤ b then a else b

/-- The inclusion `ℤ → ℚ` through `mkRat`. -/
def intQ (n : ℤ) : ℚ := mkRat n 1

/-- The inclusion `ℕ → ℚ` through `mkRat`. -/
def natQ (n : ℕ) : ℚ := mkRat n 1

/-- `np.sign` of a sample value. -/
def qsign (q : ℚ) : ℤ := if 0 < q then 1 else if q < 0 then -1 else 0

/-- Scan direction for the zero-crossing snapper. -/
inductive Direction where
  | forward
  | backward
deriving DecidableEq

/-- Body of the `for i in range(sample_index + 1, len(signal))` loop of
`_find_outward_zero_crossing`, walking the suffix `xs` of the signal that
starts at index `i`: the first index whose sample sign differs from `s0`
yields its predecessor.  The `[]` case is reached only with `i = len(signal)`,
where `i - 1 = len(signal) - 1`, the loop's fall-through result. -/
def scanFwdA (s0 : ℤ) : Nat → List ℚ → ℤ
  | i, [] => (i : ℤ) - 1
  | i, x :: xs => if qsign x ≠ s0 then (i : ℤ) - 1 else scanFwdA s0 (i + 1) xs

/-- The forward scan of `_find_outward_zero_crossing`, started at index `i`. -/
def scanFwd (signal : List ℚ) (s0 : ℤ) (i : Nat) : ℤ :=
  scanFwdA s0 i (signal.drop i)

/-- Body of the `for i in range(sample_index - 1, -1, -1)` loop of
`_find_outward_zero_crossing`, walking `xs = (signal.take (i+1)).reverse`
(the samples at indices `i, i-1, ..., 0`): the first index whose sample sign
differs from `s0` yields its successor; falling off the front yields `0`. -/
def scanBwdA (s0 : ℤ) : ℤ → List ℚ → ℤ
  | _, [] => 0
  | i, x :: xs => if qsign x ≠ s0 then i + 1 else scanBwdA s0 (i - 1) xs

/-- The backward scan of `_find_outward_zero_crossing`, started at index `i`. -/
def scanBwd (signal : List ℚ) (s0 : ℤ) (i : ℤ) : ℤ :=
  scanBwdA s0 i ((signal.take (i + 1).toNat).reverse)

/-- Embedding of `AudioEditorService._find_outward_zero_crossing`.  (The
guard is written positively: the Python `if not (0 <= sample_index <
len(signal)): return ...clamp...` is the `else` branch here.  Inside the
guarded branch `signal[sample_index]` is in range, so `getD _ 0` is exact.) -/
def findOutwardZeroCrossing (signal : List ℚ) (sampleIndex : ℤ) (dir : Direction) : ℤ :=
  if 0 ≤ sampleIndex ∧ sampleIndex < signal.length then
    if qsign (signal.getD sampleIndex.toNat 0) = 0 then sampleIndex
    else match dir with
      | Direction.forward =>
        scanFwd signal (qsign (signal.getD sampleIndex.toNat 0)) (sampleIndex.toNat + 1)
      | Direction.backward =>
        scanBwd signal (qsign (signal.getD sampleIndex.toNat 0)) (sampleIndex - 1)
  else max 0 (min ((signal.length : ℤ) - 1) sampleIndex)

/-- The punctuation set stripped by `CutParserService._normalize_word`
(Python `word.lower().strip(".,;:?!'\x22\x60 ")`); codepoint 39 is the
apostrophe and 96 the grave accent. -/
def stripChars : List Char :=
  ['.', ',', ';', ':', '?', '!', Char.ofNat 39, '"', Char.ofNat 96, ' ']

/-- Python `s.strip(chars)`: remove leading and trailing characters drawn
from `cut`. -/
def pyStrip (cut : List Char) (s : List Char) : List Char :=
  ((s.dropWhile (fun c => cut.contains c)).reverse.dropWhile
    (fun c => cut.contains c)).reverse

/-- Embedding of `CutParserService._normalize_word`: lower-case, then strip
the fixed punctuation set from both ends. -/
def normalizeWord (s : List Char) : List Char :=
  pyStrip stripChars (s.map Char.toLower)

/-- Python `s.replace(pat, rep)` (non-overlapping, left to right) on
character lists, with structural fuel; any `fuel > s.length` is enough, since
every step consumes at least one character of `s`. -/
def pyReplaceF (pat rep : List Char) : Nat → List Char → List Char
  | 0, s => s
  | _ + 1, [] => []
  | fuel + 1, c :: s =>
    if pat ≠ [] ∧ pat.isPrefixOf (c :: s) then
      rep ++ pyReplaceF pat rep fuel (s.drop (pat.length - 1))
    else c :: pyReplaceF pat rep fuel s

/-- Python `s.replace(pat, rep)`. -/
def pyReplace (s pat rep : List Char) : List Char :=
  pyReplaceF pat rep (s.length + 1) s

/-- Helper for Python `str.split()`: split on whitespace runs, never emitting
empty tokens; `acc` holds the (reversed) token currently being read. -/
def splitWsA : List Char → List Char → List (List Char)
  | acc, [] => if acc = [] then [] else [acc.reverse]
  | acc, c :: s =>
    if c.isWhitespace then
      if acc = [] then splitWsA [] s else acc.reverse :: splitWsA [] s
    else splitWsA (c :: acc) s

/-- Python `s.split()` (no separator argument). -/
def splitWs (s : List Char) : List (List Char) := splitWsA [] s

/-- The literal `<cut>` delimiter token. -/
def cutOpenTok : List Char := "<cut>".data

/-- The literal `</cut>` delimiter token. -/
def cutCloseTok : List Char := "</cut>".data

/-- The preprocessing of `CutParserService.run`:
`marked_transcript.replace('<cut>', ' <cut> ').replace('</cut>', ' </cut> ').split()`. -/
def tokenize (s : List Char) : List (List Char) :=
  splitWs (pyReplace (pyReplace s cutOpenTok " <cut> ".data) cutCloseTok " </cut> ".data)

/-- The bounded-lookahead mismatch recovery of `CutParserService.run`: the
Python loop `for i in range(1, 6)` probes `marked_tokens[token_idx + i]`;
here `ts` is the token list after the current token and the result `some j`
(with `j = i - 1 < 5`) says the walk resumes after dropping `j` tokens of
`ts`. -/
def findResyncA (target : List Char) : Nat → List (List Char) → Option Nat
  | _, [] => none
  | j, t :: ts =>
    if 5 ≤ j then none
    else if normalizeWord t = target then some j
    else findResyncA target (j + 1) ts

/-- Lookahead entry point: probe the next five tokens. -/
def findResync (target : List Char) (ts : List (List Char)) : Option Nat :=
  findResyncA target 0 ts

/-- The main `while` loop of `CutParserService.run`, with structural fuel.
Every iteration advances the token cursor or the word cursor, so any
`fuel > ts.length + ws.length` is enough; the loop exits (and flushes a
non-empty open segment) when either cursor runs out. -/
def syncLoopF : Nat → List (List Char) → List ScribeWord → Bool → List Nat →
    List (List Nat) → List (List Nat)
  | 0, _, _, ins, curr, segs => if ins ∧ curr ≠ [] then segs ++ [curr] else segs
  | _ + 1, [], _, ins, curr, segs => if ins ∧ curr ≠ [] then segs ++ [curr] else segs
  | _ + 1, _ :: _, [], ins, curr, segs => if ins ∧ curr ≠ [] then segs ++ [curr] else segs
  | fuel + 1, t :: ts, w :: ws, ins, curr, segs =>
    if t = cutOpenTok then syncLoopF fuel ts (w :: ws) true [] segs
    else if t = cutCloseTok then
      if ins then
        syncLoopF fuel ts (w :: ws) false []
          (if curr ≠ [] then segs ++ [curr] else segs)
      else syncLoopF fuel ts (w :: ws) ins curr segs
    else if normalizeWord t = [] then syncLoopF fuel ts (w :: ws) ins curr segs
    else if w.type = ScribeType.spacing then syncLoopF fuel (t :: ts) ws ins curr segs
    else if normalizeWord t = normalizeWord w.text then
      syncLoopF fuel ts ws ins
        (if ins ∧ w.type = ScribeType.word then curr ++ [w.id] else curr) segs
    else
      match findResync (normalizeWord w.text) ts with
      | some j => syncLoopF fuel (ts.drop j) (w :: ws) ins curr segs
      | none => syncLoopF fuel (t :: ts) ws ins curr segs

/-- Embedding of `CutParserService.run`. -/
def runParser (original_words : List ScribeWord) (marked_transcript : List Char) :
    List (List Nat) :=
  let toks := tokenize marked_transcript
  syncLoopF (toks.length + original_words.length + 1) toks original_words false [] []

example :
    runParser
      [⟨0, "the".data, 0, 3/10, ScribeType.word⟩,
       ⟨1, "um".data, 3/10, 3/5, ScribeType.word⟩,
       ⟨2, "cat".data, 3/5, 9/10, ScribeType.word⟩]
      "the <cut>um</cut> cat".data = [[1]] := by decide

example :
    runParser
      [⟨0, "the".data, 0, 3/10, ScribeType.word⟩,
       ⟨1, "!!!".data, 3/10, 3/5, ScribeType.word⟩,
       ⟨2, "cat".data, 3/5, 9/10, ScribeType.word⟩]
      "the <cut>!!!</cut> cat".data = [] := by decide

/-- Python `word_id_map = {word['id']: word for word in mfa_data}` lookup: a
dict comprehension keeps the last entry for a duplicated id, hence the
reversed search. -/
def wordById (allWords : List AlignedWord) (i : Nat) : Option AlignedWord :=
  allWords.reverse.find? (fun w => w.id == i)

/-- Python `next((k for k, item in enumerate(lst) if item["id"] == wid), -1)`. -/
def indexOfId (allWords : List AlignedWord) (i : Nat) : ℤ :=
  match allWords.findIdx? (fun w => w.id == i) with
  | some k => (k : ℤ)
  | none => -1

/-- `all_words_list[idx - 1] if idx > 0 else None`. -/
def prevWordAt (allWords : List AlignedWord) (idx : ℤ) : Option AlignedWord :=
  if 0 < idx then allWords.get? (idx.toNat - 1) else none

/-- `all_words_list[idx + 1] if idx != -1 and idx < len(all_words_list) - 1
else None`. -/
def nextWordAt (allWords : List AlignedWord) (idx : ℤ) : Option AlignedWord :=
  if idx ≠ -1 ∧ idx < (allWords.length : ℤ) - 1 then allWords.get? (idx.toNat + 1)
  else none

/-- Embedding of `AudioEditorService._get_cut_boundaries`.  `none` models the
exceptions the Python code would raise: `IndexError` on an empty run and
`KeyError` on an id missing from `word_id_map` (its callers look the ids up
first, so in context those cases never fire). -/
def getCutBoundaries (segment_word_ids : List Nat) (all_words_list : List AlignedWord)
    (backward_invasion forward_invasion : ℚ) : Option (ℚ × ℚ) := do
  let firstId ← segment_word_ids.head?
  let lastId ← segment_word_ids.getLast?
  let first_word_of_segment ← wordById all_words_list firstId
  let last_word_of_segment ← wordById all_words_list lastId
  let first_word_index := indexOfId all_words_list firstId
  let last_word_index := indexOfId all_words_list lastId
  let start_time :=
    if 0 < backward_invasion then
      match prevWordAt all_words_list first_word_index with
      | some prev =>
        match prev.phonemes.getLast? with
        | some lastPh =>
          qsub lastPh.«end» (qmul (qsub lastPh.«end» lastPh.start) backward_invasion)
        | none => first_word_of_segment.start
      | none => first_word_of_segment.start
    else
      match prevWordAt all_words_list first_word_index with
      | some prev => qdiv (qadd prev.«end» first_word_of_segment.start) 2
      | none => 0
  let end_time :=
    if 0 < forward_invasion then
      match nextWordAt all_words_list last_word_index with
      | some next =>
        match next.phonemes.head? with
        | some firstPh =>
          qadd firstPh.start (qmul (qsub firstPh.«end» firstPh.start) forward_invasion)
        | none => last_word_of_segment.«end»
      | none => last_word_of_segment.«end»
    else
      match nextWordAt all_words_list last_word_index with
      | some next => qdiv (qadd last_word_of_segment.«end» next.start) 2
      | none => last_word_of_segment.«end»
  return (start_time, end_time)

/-- Python slice index normalization for `l[a:b]` (negative indices count
from the end, then everything is clamped to the list bounds). -/
def pyIdx (n : Nat) (i : ℤ) : Nat :=
  if i < 0 then (max 0 ((n : ℤ) + i)).toNat else min i.toNat n

/-- Python `l[a:b]`. -/
def pySlice {α : Type} (l : List α) (a b : ℤ) : List α :=
  (l.take (pyIdx l.length b)).drop (pyIdx l.length a)

/-- Embedding of `AudioEditorService._perform_direct_cut`; an audio clip is a
list of millisecond frames.  On an invalid range the Python code logs an
error and returns the clip unchanged. -/
def performDirectCut (audio : List ℚ) (start_s end_s : ℚ) : List ℚ :=
  let start_ms := pyTrunc (qmul start_s 1000)
  let end_ms := pyTrunc (qmul end_s 1000)
  if start_ms < 0 ∨ (audio.length : ℤ) < end_ms ∨ end_ms ≤ start_ms then audio
  else pySlice audio 0 start_ms ++ pySlice audio end_ms (audio.length : ℤ)

/-- The metadata dictionary of `AudioEditorService.run`'s result. -/
structure EditMetadata where
  chunk_start_s_abs : ℚ
  chunk_end_s_abs : ℚ
  natural_cut_timestamps_relative : ℚ × ℚ
  backward_invasion_timestamps_relative : ℚ × ℚ
  forward_invasion_timestamps_relative : ℚ × ℚ
deriving DecidableEq

/-- The dictionary returned by `AudioEditorService.run`. -/
structure EditResult where
  original_audio : List ℚ
  natural_cut_audio : List ℚ
  backward_invasion_audio : List ℚ
  forward_invasion_audio : List ℚ
  metadata : EditMetadata
deriving DecidableEq

/-- Python `max(xs)` (`none` on an empty list, where Python raises). -/
def maxQ : List ℚ → Option ℚ
  | [] => none
  | x :: xs => some (xs.foldl qmax x)

/-- Python `min(xs)` (`none` on an empty list, where Python raises). -/
def minQ : List ℚ → Option ℚ
  | [] => none
  | x :: xs => some (xs.foldl qmin x)

/-- Embedding of `AudioEditorService.run` (live code path; the `scribe_data`
argument is unused there, the commented-out spacing check being disabled).
`full_audio` is the pydub clip as millisecond frames, `y_full` the raw
sample array, `sr` the sample rate, `splitPointsMs` the `split_point_ms`
column of `split_points_df`, and `bwdInvasion`/`fwdInvasion` the service's
configured `editing.backward/forward_phoneme_invasion_factor` (default 0.8).
`none` is the caught `KeyError` of a cut word id missing from the MFA data
(or an empty run, which the orchestrator never passes). -/
def runEditor (bwdInvasion fwdInvasion : ℚ) (cut_word_ids : List Nat)
    (full_audio y_full : List ℚ) (sr : Nat)
    (mfa_data : List AlignedWord) (splitPointsMs : List ℚ) : Option EditResult := do
  let firstId ← cut_word_ids.head?
  let lastId ← cut_word_ids.getLast?
  let first_word_to_cut ← wordById mfa_data firstId
  let last_word_to_cut ← wordById mfa_data lastId
  let first_word_index := indexOfId mfa_data firstId
  let last_word_index := indexOfId mfa_data lastId
  let context_word_before := prevWordAt mfa_data first_word_index
  let context_word_after := nextWordAt mfa_data last_word_index
  let context_start_time := match context_word_before with
    | some w => w.start
    | none => first_word_to_cut.start
  let context_end_time := match context_word_after with
    | some w => w.«end»
    | none => last_word_to_cut.«end»
  let total_duration_s : ℚ := qdiv (natQ full_audio.length) 1000
  let eligible_points_s := splitPointsMs.map (fun p => qdiv p 1000)
  let chunk_start_s :=
    match maxQ (eligible_points_s.filter (fun p => decide (p ≤ context_start_time))) with
    | some m => m
    | none => 0
  let chunk_end_s :=
    match minQ (eligible_points_s.filter (fun p => decide (context_end_time ≤ p))) with
    | some m => m
    | none => total_duration_s
  let original_chunk :=
    pySlice full_audio (pyTrunc (qmul chunk_start_s 1000)) (pyTrunc (qmul chunk_end_s 1000))
  let (nat_start0, nat_end0) ← getCutBoundaries cut_word_ids mfa_data 0 0
  let nat_start :=
    qdiv (intQ (findOutwardZeroCrossing y_full (pyTrunc (qmul nat_start0 (natQ sr)))
      Direction.backward)) (natQ sr)
  let nat_end :=
    qdiv (intQ (findOutwardZeroCrossing y_full (pyTrunc (qmul nat_end0 (natQ sr)))
      Direction.forward)) (natQ sr)
  let (bwd_start0, bwd_end0) ← getCutBoundaries cut_word_ids mfa_data bwdInvasion 0
  let bwd_start :=
    qdiv (intQ (findOutwardZeroCrossing y_full (pyTrunc (qmul bwd_start0 (natQ sr)))
      Direction.backward)) (natQ sr)
  let bwd_end :=
    qdiv (intQ (findOutwardZeroCrossing y_full (pyTrunc (qmul bwd_end0 (natQ sr)))
      Direction.forward)) (natQ sr)
  let (fwd_start0, fwd_end0) ← getCutBoundaries cut_word_ids mfa_data 0 fwdInvasion
  let fwd_start :=
    qdiv (intQ (findOutwardZeroCrossing y_full (pyTrunc (qmul fwd_start0 (natQ sr)))
      Direction.backward)) (natQ sr)
  let fwd_end :=
    qdiv (intQ (findOutwardZeroCrossing y_full (pyTrunc (qmul fwd_end0 (natQ sr)))
      Direction.forward)) (natQ sr)
  pure
    { original_audio := original_chunk
      natural_cut_audio :=
        performDirectCut original_chunk (qsub nat_start chunk_start_s)
          (qsub nat_end chunk_start_s)
      backward_invasion_audio :=
        performDirectCut original_chunk (qsub bwd_start chunk_start_s)
          (qsub bwd_end chunk_start_s)
      forward_invasion_audio :=
        performDirectCut original_chunk (qsub fwd_start chunk_start_s)
          (qsub fwd_end chunk_start_s)
      metadata :=
        { chunk_start_s_abs := chunk_start_s
          chunk_end_s_abs := chunk_end_s
          natural_cut_timestamps_relative :=
            (qsub nat_start chunk_start_s, qsub nat_end chunk_start_s)
          backward_invasion_timestamps_relative :=
            (qsub bwd_start chunk_start_s, qsub bwd_end chunk_start_s)
          forward_invasion_timestamps_relative :=
            (qsub fwd_start chunk_start_s, qsub fwd_end chunk_start_s) } }

/-- The transcript words `PipelineOrchestrator.run` (lines 188-191) keeps for
a chunk: `word['start'] >= chunk_start_s and word['end'] <= chunk_end_s`. -/
def chunkWordsOf (scribeWords : List ScribeWord) (chunk_start_s chunk_end_s : ℚ) :
    List ScribeWord :=
  scribeWords.filter
    (fun w => decide (chunk_start_s ≤ w.start) && decide (w.«end» ≤ chunk_end_s))

/-- The usability computation of `PipelineOrchestrator.run` (lines 193-202):
a chunk word whose id resolves to an MFA word carrying
`is_timestamp_reliable = False` (absent defaults to `True`) makes the
datapoint unusable; words with no MFA counterpart are skipped. -/
def computeIsUsable (cw : List ScribeWord) (mfa_data : List AlignedWord) : Bool :=
  cw.all (fun w =>
    match mfa_data.find? (fun m => m.id == w.id) with
    | some m => m.is_timestamp_reliable.getD true
    | none => true)

/-- What `PipelineOrchestrator.run` hands to `DatasetGeneratorService.run`
for one surviving cut. -/
structure DatasetEntry where
  cut_id : Nat
  cut_word_ids : List Nat
  chunk_words : List ScribeWord
  edit : EditResult
  is_usable : Bool
deriving DecidableEq

/-- The read-only inputs of the final editing stage of
`PipelineOrchestrator.run`. -/
structure PipelineCtx where
  bwdInvasion : ℚ
  fwdInvasion : ℚ
  full_audio : List ℚ
  y_full : List ℚ
  sr : Nat
  mfa_data : List AlignedWord
  scribeWords : List ScribeWord
  splitPointsMs : List ℚ
deriving DecidableEq

/-- One iteration of the `for i, cut_word_ids in enumerate(cut_segments)`
loop of `PipelineOrchestrator.run` (lines 164-211): the boundary-word guard,
the audio editor call, the usability flag and the dataset record; `none`
means the iteration `continue`d without emitting a datapoint. -/
def processCut (ctx : PipelineCtx) (i : Nat) (cut_word_ids : List Nat) :
    Option DatasetEntry :=
  if cut_word_ids = [] ∨ cut_word_ids.head? = some 0 ∨
      cut_word_ids.getLast?.map (fun n => (n : ℤ)) =
        some ((ctx.mfa_data.length : ℤ) - 1) then
    none
  else
    match runEditor ctx.bwdInvasion ctx.fwdInvasion cut_word_ids ctx.full_audio
        ctx.y_full ctx.sr ctx.mfa_data ctx.splitPointsMs with
    | none => none
    | some r =>
      let cw := chunkWordsOf ctx.scribeWords r.metadata.chunk_start_s_abs
        r.metadata.chunk_end_s_abs
      some { cut_id := i + 1, cut_word_ids := cut_word_ids, chunk_words := cw,
             edit := r, is_usable := computeIsUsable cw ctx.mfa_data }

/-- The whole per-cut loop: the dataset records produced for
`cut_segments`, in order, starting at enumeration index `i`. -/
def processCuts (ctx : PipelineCtx) : Nat → List (List Nat) → List DatasetEntry
  | _, [] => []
  | i, c :: cs =>
    match processCut ctx i c with
    | none => processCuts ctx (i + 1) cs
    | some e => e :: processCuts ctx (i + 1) cs

/-- Modelled from the spec (the variant construction the spec ascribes to the
Splice Synthesizer, which the code under `src/` does not implement): the
concatenation of "a fixed-duration context window of audio immediately
preceding the (snapped) start with a fixed-duration context window
immediately following the (snapped) end (configurable window length, default
3000 ms each side, clamped to file bounds)".  `startMs`/`endMs` are the
snapped cut boundaries in milliseconds of the full recording. -/
def specContextWindowVariant (full_audio : List ℚ) (windowMs startMs endMs : ℤ) :
    List ℚ :=
  pySlice full_audio (max 0 (startMs - windowMs)) startMs ++
    pySlice full_audio endMs (min (full_audio.length : ℤ) (endMs + windowMs))

/-- Concrete aligned words at millisecond scale (word `k` spans
`[k/1000, (k+1)/1000]` seconds); words 1 and 3 carry phoneme data and word 4
an unreliable timestamp flag. -/
def mfaA : List AlignedWord :=
  [⟨0, 0, mkRat 1 1000, [], some true⟩,
   ⟨1, mkRat 1 1000, mkRat 2 1000, [⟨mkRat 1 1000, mkRat 2 1000⟩], some true⟩,
   ⟨2, mkRat 2 1000, mkRat 3 1000, [], some true⟩,
   ⟨3, mkRat 3 1000, mkRat 4 1000, [⟨mkRat 3 1000, mkRat 4 1000⟩], some true⟩,
   ⟨4, mkRat 4 1000, mkRat 5 1000, [], some false⟩]

/-- The transcript words matching `mfaA`. -/
def scribeA : List ScribeWord :=
  [⟨0, "a".data, 0, mkRat 1 1000, ScribeType.word⟩,
   ⟨1, "b".data, mkRat 1 1000, mkRat 2 1000, ScribeType.word⟩,
   ⟨2, "c".data, mkRat 2 1000, mkRat 3 1000, ScribeType.word⟩,
   ⟨3, "d".data, mkRat 3 1000, mkRat 4 1000, ScribeType.word⟩,
   ⟨4, "e".data, mkRat 4 1000, mkRat 5 1000, ScribeType.word⟩]

/-- A concrete pipeline context over `mfaA`/`scribeA`: a 6 ms recording, one
split point at 0, invasion factors at the 0.8 default. -/
def ctxA : PipelineCtx :=
  ⟨mkRat 4 5, mkRat 4 5, List.replicate 6 0, List.replicate 6 0, 1000, mfaA, scribeA,
   [0]⟩

/-- Three aligned words whose midpoint boundaries collapse to the same
millisecond, making every computed splice range empty. -/
def mfaB : List AlignedWord :=
  [⟨0, 0, mkRat 1 1000, [], some true⟩,
   ⟨1, mkRat 1 1000, mkRat 3 2000, [], some true⟩,
   ⟨2, mkRat 3 2000, mkRat 2 1000, [], some true⟩]

/-- Five aligned words between 0.02 s and 0.07 s of a 100 ms recording, with
split points at 30 ms and 70 ms, so that the context chunk is the 40 ms
between the split points. -/
def mfaC : List AlignedWord :=
  [⟨0, mkRat 1 50, mkRat 1 40, [], some true⟩,
   ⟨1, mkRat 7 200, mkRat 1 25, [], some true⟩,
   ⟨2, mkRat 9 200, mkRat 1 20, [], some true⟩,
   ⟨3, mkRat 11 200, mkRat 3 50, [], some true⟩,
   ⟨4, mkRat 13 200, mkRat 7 100, [], some true⟩]

/-- The editor's output on the `mfaC` scenario: a 100 ms recording with
split points at 30 ms and 70 ms, cutting word 2. -/
def editC : EditResult :=
  (runEditor (mkRat 4 5) (mkRat 4 5) [2] (List.replicate 100 0)
    (List.replicate 100 0) 1000 mfaC [30, 70]).getD
    ⟨[], [], [], [], ⟨0, 0, (0, 0), (0, 0), (0, 0)⟩⟩

/-- The dataset entry the orchestrator produces for cut `[2]` of the `ctxA`
scenario. -/
def entryA : DatasetEntry :=
  (processCut ctxA 0 [2]).getD
    ⟨0, [], [], ⟨[], [], [], [], ⟨0, 0, (0, 0), (0, 0), (0, 0)⟩⟩, false⟩

/-- The editor's output cutting word 2 of `mfaA` on a 6 ms recording
sampled at 10 kHz (60 zero samples), with the default 0.8 factors. -/
def editD : EditResult :=
  (runEditor (mkRat 4 5) (mkRat 4 5) [2] (List.replicate 6 0)
    (List.replicate 60 0) 10000 mfaA [0]).getD
    ⟨[], [], [], [], ⟨0, 0, (0, 0), (0, 0), (0, 0)⟩⟩

/-- The aligned words of the spec's boundary scenario: word 0 ends at 0.3 s,
word 1 spans 0.3-0.6 s, word 2 starts at 0.6 s; no phoneme data. -/
def mfaRT : List AlignedWord :=
  [⟨0, 0, 3/10, [], some true⟩,
   ⟨1, 3/10, 3/5, [], some true⟩,
   ⟨2, 3/5, 9/10, [], some true⟩]

/-- The editor's output on the scenario where the midpoint boundaries
collapse to a single millisecond. -/
def editB : EditResult :=
  (runEditor (mkRat 4 5) (mkRat 4 5) [1] (List.replicate 2 0) (List.replicate 2 0)
    1000 mfaB [0]).getD ⟨[], [], [], [], ⟨0, 0, (0, 0), (0, 0), (0, 0)⟩⟩

/-- Aligned words with a silence gap between word 0 (ending 0.2 s) and
word 1 (starting 0.4 s), and no phoneme data anywhere. -/
def mfaD : List AlignedWord :=
  [⟨0, mkRat 1 10, mkRat 1 5, [], some true⟩,
   ⟨1, mkRat 2 5, mkRat 1 2, [], some true⟩,
   ⟨2, mkRat 3 5, mkRat 7 10, [], some true⟩]

/-- `" ".join(ts)`: single-space interleaving of tokens. -/
def joinSp : List (List Char) → List Char
  | [] => []
  | [t] => t
  | t :: ts => t ++ ' ' :: joinSp ts

/-- The texts of the non-spacing entries of a group of canonical words
(spacing entries carry no lexical token). -/
def groupTexts (g : List ScribeWord) : List (List Char) :=
  (g.filter (fun w => decide (w.type ≠ ScribeType.spacing))).map (fun w => w.text)

/-- One group of a marking plan rendered into transcript text: a wrapped
group glues `<cut>` onto its front and `</cut>` onto its back, as in the
spec's `"the <cut>um</cut> cat"`. -/
def renderGroup : Bool × List ScribeWord → List Char
  | (false, g) => joinSp (groupTexts g)
  | (true, g) => cutOpenTok ++ joinSp (groupTexts g) ++ cutCloseTok

/-- A marking plan (the canonical sequence split into consecutive groups,
wrapped or bare) rendered into the marked transcript: an exact copy of the
canonical word text with cut delimiters around the wrapped groups and no
other alteration. -/
def renderPlan (plan : List (Bool × List ScribeWord)) : List Char :=
  joinSp (plan.map renderGroup)

/-- The canonical words of a plan, in order. -/
def planWords : List (Bool × List ScribeWord) → List ScribeWord
  | [] => []
  | (_, g) :: rest => g ++ planWords rest

/-- The token stream a rendered plan tokenizes to: the delimiters as
standalone tokens around each wrapped group's texts. -/
def planTokens : List (Bool × List ScribeWord) → List (List Char)
  | [] => []
  | (false, g) :: rest => groupTexts g ++ planTokens rest
  | (true, g) :: rest => cutOpenTok :: (groupTexts g ++ cutCloseTok :: planTokens rest)

/-- The ids of the `word`-type entries of a group. -/
def wordIds (g : List ScribeWord) : List Nat :=
  (g.filter (fun w => decide (w.type = ScribeType.word))).map (fun w => w.id)

/-- The runs the round-trip expects: for each wrapped group, the ids of its
`word`-type entries; a wrapped group with none contributes no run. -/
def planExpected : List (Bool × List ScribeWord) → List (List Nat)
  | [] => []
  | (false, _) :: rest => planExpected rest
  | (true, g) :: rest =>
    if wordIds g = [] then planExpected rest else wordIds g :: planExpected rest

/-- Atomic events of the resynchronization walk: delimiters and canonical
entries, in stream order. -/
inductive SyncItem where
  | tagOpen
  | tagClose
  | entry (w : ScribeWord)
deriving DecidableEq

/-- The tokens an item list presents to the loop (spacing entries none). -/
def itemTokens : List SyncItem → List (List Char)
  | [] => []
  | SyncItem.tagOpen :: rest => cutOpenTok :: itemTokens rest
  | SyncItem.tagClose :: rest => cutCloseTok :: itemTokens rest
  | SyncItem.entry w :: rest =>
    if w.type = ScribeType.spacing then itemTokens rest else w.text :: itemTokens rest

/-- The canonical entries of an item list, in order. -/
def itemWords : List SyncItem → List ScribeWord
  | [] => []
  | SyncItem.tagOpen :: rest => itemWords rest
  | SyncItem.tagClose :: rest => itemWords rest
  | SyncItem.entry w :: rest => w :: itemWords rest

/-- The abstract resynchronization machine on items: what `syncLoopF` does
to its state when tokens and canonical entries stay in lock step. -/
def itemsRun : List SyncItem → Bool → List Nat → List (List Nat) → List (List Nat)
  | [], ins, curr, segs => if ins ∧ curr ≠ [] then segs ++ [curr] else segs
  | SyncItem.tagOpen :: rest, _, _, segs => itemsRun rest true [] segs
  | SyncItem.tagClose :: rest, ins, curr, segs =>
    if ins then itemsRun rest false [] (if curr ≠ [] then segs ++ [curr] else segs)
    else itemsRun rest false curr segs
  | SyncItem.entry w :: rest, ins, curr, segs =>
    itemsRun rest ins
      (if ins ∧ w.type = ScribeType.word then curr ++ [w.id] else curr) segs

/-- The linearization of a plan into items. -/
def planItems : List (Bool × List ScribeWord) → List SyncItem
  | [] => []
  | (false, g) :: rest => g.map SyncItem.entry ++ planItems rest
  | (true, g) :: rest =>
    SyncItem.tagOpen :: (g.map SyncItem.entry ++ SyncItem.tagClose :: planItems rest)

/-- Delimiter items are properly bracketed for the given starting state. -/
def wfItems : List SyncItem → Bool → Prop
  | [], _ => True
  | SyncItem.tagOpen :: rest, ins => ins = false ∧ wfItems rest true
  | SyncItem.tagClose :: rest, ins => ins = true ∧ wfItems rest false
  | SyncItem.entry _ :: rest, ins => wfItems rest ins

/-- A canonical entry fit for exact round-tripping: a non-spacing entry's
text must be a single whitespace-free token, free of `<` (so it cannot be
or spawn a delimiter), that survives normalization. -/
def cleanWord (w : ScribeWord) : Prop :=
  w.type ≠ ScribeType.spacing →
    ((∀ c ∈ w.text, ¬ c.isWhitespace ∧ c ≠ '<') ∧ normalizeWord w.text ≠ [])

instance : DecidablePred cleanWord := fun w => by
  unfold cleanWord
  infer_instance

/-- One group of a marking plan after the delimiter-padding `replace` calls
of `CutParserService.run`: `<cut>` has become ` <cut> ` and `</cut>` has
become ` </cut> `. -/
def spacedGroup : Bool × List ScribeWord → List Char
  | (false, g) => joinSp (groupTexts g)
  | (true, g) => " <cut> ".data ++ joinSp (groupTexts g) ++ " </cut> ".data

/-- The spec's round-trip scenario as a marking plan: `"the"` bare, `"um"`
wrapped, `"cat"` bare. -/
def planRT : List (Bool × List ScribeWord) :=
  [(false, [⟨0, "the".data, 0, mkRat 3 10, ScribeType.word⟩]),
   (true, [⟨1, "um".data, mkRat 3 10, mkRat 3 5, ScribeType.word⟩]),
   (false, [⟨2, "cat".data, mkRat 3 5, mkRat 9 10, ScribeType.word⟩])]

/-- A plan wrapping a word whose text `"!!!"` normalizes to the empty
string: the round-trip loses it. -/
def planBang : List (Bool × List ScribeWord) :=
  [(false, [⟨0, "the".data, 0, mkRat 3 10, ScribeType.word⟩]),
   (true, [⟨1, "!!!".data, mkRat 3 10, mkRat 3 5, ScribeType.word⟩]),
   (false, [⟨2, "cat".data, mkRat 3 5, mkRat 9 10, ScribeType.word⟩])]

/-- Modelled from the spec: the Reliability Gate as the spec words it -
"gather {first word, last word, immediate predecessor if any, immediate
successor if any}; usable = true iff all of these carry
`is_reliable_timestamp = true` (or lack the field, defaulting to
reliable)". -/
def specUsableRule (mfa_data : List AlignedWord) (cut_word_ids : List Nat) : Bool :=
  let gathered : List (Option AlignedWord) :=
    [cut_word_ids.head?.bind (wordById mfa_data),
     cut_word_ids.getLast?.bind (wordById mfa_data),
     prevWordAt mfa_data (indexOfId mfa_data (cut_word_ids.headD 0)),
     nextWordAt mfa_data (indexOfId mfa_data (cut_word_ids.getLastD 0))]
  gathered.all (fun o =>
    match o with
    | some w => w.is_timestamp_reliable.getD true
    | none => true)

/-- The canonical words of the spec's round-trip scenario:
`[{id:0,"the"},{id:1,"um"},{id:2,"cat"}]` at times
`[(0.0,0.3),(0.3,0.6),(0.6,0.9)]`. -/
def scribeRT : List ScribeWord :=
  [⟨0, "the".data, 0, mkRat 3 10, ScribeType.word⟩,
   ⟨1, "um".data, mkRat 3 10, mkRat 3 5, ScribeType.word⟩,
   ⟨2, "cat".data, mkRat 3 5, mkRat 9 10, ScribeType.word⟩]

example : (processCut ctxA 0 [2]).map DatasetEntry.is_usable = some false := by decide

example :
    (runEditor (mkRat 4 5) (mkRat 4 5) [1] (List.replicate 2 0) (List.replicate 2 0)
      1000 mfaB [0]).map (fun r => r.natural_cut_audio == r.original_audio) =
      some true := by
  decide

example :
    (runEditor (mkRat 4 5) (mkRat 4 5) [2] (List.replicate 100 0)
      (List.replicate 100 0) 1000 mfaC [30, 70]).map
      (fun r => r.natural_cut_audio.length) = some 30 := by decide

example :
    (runEditor (mkRat 4 5) (mkRat 4 5) [2] (List.replicate 100 0)
      (List.replicate 100 0) 1000 mfaC [30, 70]).map
      (fun r => r.metadata.natural_cut_timestamps_relative) =
      some (mkRat 3 250, mkRat 11 500) := by decide

example : (specContextWindowVariant (List.replicate 100 0) 3000 42 52).length = 90 := by
  decide

/-! ### The `mkRat`-based wrappers agree with the field operations of `ℚ` -/

theorem qadd_eq (a b : ℚ) : qadd a b = a + b := by
  unfold qadd
  rw [Rat.mkRat_eq_divInt, Rat.add_def, Rat.normalize_eq_mkRat, Rat.mkRat_eq_divInt]

theorem qsub_eq (a b : ℚ) : qsub a b = a - b := by
  unfold qsub
  rw [Rat.mkRat_eq_divInt, Rat.sub_def, Rat.normalize_eq_mkRat, Rat.mkRat_eq_divInt]

theorem qmul_eq (a b : ℚ) : qmul a b = a * b := by
  unfold qmul
  rw [Rat.mkRat_eq_divInt, Rat.mul_def, Rat.normalize_eq_mkRat, Rat.mkRat_eq_divInt]

theorem intRat_eq (n d : ℤ) : intRat n d = Rat.divInt n d := by
  unfold intRat
  split
  · next h =>
    rw [Rat.mkRat_eq_divInt,
      show (((-d).toNat : ℤ)) = -d from Int.toNat_of_nonneg (by omega),
      Rat.neg_divInt_neg]
  · next h =>
    rw [Rat.mkRat_eq_divInt, Int.toNat_of_nonneg (by omega)]

theorem qdiv_eq (a b : ℚ) : qdiv a b = a / b := by
  unfold qdiv
  rw [intRat_eq, Rat.div_def']

theorem qmax_eq (a b : ℚ) : qmax a b = max a b := by
  unfold qmax
  split
  · exact (max_eq_right (by assumption)).symm
  · exact (max_eq_left (le_of_not_le (by assumption))).symm

theorem qmin_eq (a b : ℚ) : qmin a b = min a b := by
  unfold qmin
  split
  · exact (min_eq_left (by assumption)).symm
  · exact (min_eq_right (le_of_not_le (by assumption))).symm

theorem intQ_eq (n : ℤ) : intQ n = (n : ℚ) := by
  unfold intQ
  rw [Rat.mkRat_one]

theorem natQ_eq (n : ℕ) : natQ n = (n : ℚ) := by
  unfold natQ
  rw [Rat.mkRat_one]
  exact Int.cast_natCast n

/-! ### Zero-crossing snapper: scan-loop specifications -/

theorem scanFwdA_nil (s0 : ℤ) (i : Nat) : scanFwdA s0 i [] = (i : ℤ) - 1 := rfl

theorem scanFwdA_cons (s0 : ℤ) (i : Nat) (x : ℚ) (xs : List ℚ) :
    scanFwdA s0 i (x :: xs) =
      if qsign x ≠ s0 then (i : ℤ) - 1 else scanFwdA s0 (i + 1) xs := rfl

theorem scanFwd_def (signal : List ℚ) (s0 : ℤ) (i : Nat) :
    scanFwd signal s0 i = scanFwdA s0 i (signal.drop i) := rfl

theorem scanBwdA_nil (s0 : ℤ) (i : ℤ) : scanBwdA s0 i [] = 0 := rfl

theorem scanBwdA_cons (s0 : ℤ) (i : ℤ) (x : ℚ) (xs : List ℚ) :
    scanBwdA s0 i (x :: xs) =
      if qsign x ≠ s0 then i + 1 else scanBwdA s0 (i - 1) xs := rfl

theorem scanBwd_def (signal : List ℚ) (s0 : ℤ) (i : ℤ) :
    scanBwd signal s0 i = scanBwdA s0 i ((signal.take (i + 1).toNat).reverse) := rfl

/-- The forward scan started just after an index carrying sign `s0` lands in
bounds on a sample of sign `s0`, and re-running it from just after the
landing index returns the landing index. -/
theorem scanFwd_spec (signal : List ℚ) (s0 : ℤ) :
    ∀ (n i : Nat), signal.length - i = n → 1 ≤ i → i ≤ signal.length →
      qsign (signal.getD (i - 1) 0) = s0 →
      ∃ r : Nat, scanFwd signal s0 i = (r : ℤ) ∧ i - 1 ≤ r ∧ r < signal.length ∧
        qsign (signal.getD r 0) = s0 ∧ scanFwd signal s0 (r + 1) = (r : ℤ) := by
  intro n
  induction n with
  | zero =>
    intro i hn h1 h2 hprev
    have hi : i = signal.length := by omega
    refine ⟨i - 1, ?_, le_refl _, by omega, hprev, ?_⟩
    · rw [scanFwd_def, hi, List.drop_length, scanFwdA_nil]
      omega
    · rw [scanFwd_def, show i - 1 + 1 = i by omega, hi, List.drop_length, scanFwdA_nil]
      omega
  | succ m ih =>
    intro i hn h1 h2 hprev
    have hilt : i < signal.length := by omega
    have hdrop : signal.drop i = signal.getD i 0 :: signal.drop (i + 1) := by
      rw [List.drop_eq_getElem_cons hilt, List.getD_eq_getElem signal 0 hilt]
    by_cases hx : qsign (signal.getD i 0) ≠ s0
    · refine ⟨i - 1, ?_, le_refl _, by omega, hprev, ?_⟩
      · rw [scanFwd_def, hdrop, scanFwdA_cons, if_pos hx]
        omega
      · rw [scanFwd_def, show i - 1 + 1 = i by omega, hdrop, scanFwdA_cons, if_pos hx]
        omega
    · push_neg at hx
      obtain ⟨r, hr1, hr2, hr3, hr4, hr5⟩ :=
        ih (i + 1) (by omega) (by omega) (by omega) (by simpa using hx)
      refine ⟨r, ?_, by omega, hr3, hr4, hr5⟩
      rw [scanFwd_def, hdrop, scanFwdA_cons, if_neg (by simpa using hx)]
      rw [scanFwd_def] at hr1
      exact hr1

/-- The backward scan started just before an index carrying sign `s0` lands
in bounds (at or before it) on a sample of sign `s0`, and re-running it from
just before the landing index returns the landing index. -/
theorem scanBwd_spec (signal : List ℚ) (s0 : ℤ) :
    ∀ (k : Nat), k < signal.length → qsign (signal.getD k 0) = s0 →
      ∃ r : Nat, scanBwd signal s0 ((k : ℤ) - 1) = (r : ℤ) ∧ r ≤ k ∧
        qsign (signal.getD r 0) = s0 ∧ scanBwd signal s0 ((r : ℤ) - 1) = (r : ℤ) := by
  intro k
  induction k with
  | zero =>
    intro hk hsgn
    refine ⟨0, ?_, le_refl _, hsgn, ?_⟩ <;>
      simp [scanBwd_def, scanBwdA_nil]
  | succ m ih =>
    intro hk hsgn
    have hmlt : m < signal.length := by omega
    have htake : (signal.take (m + 1)).reverse =
        signal.getD m 0 :: (signal.take m).reverse := by
      rw [List.take_succ, List.getD_eq_getElem signal 0 hmlt,
        List.getElem?_eq_getElem hmlt]
      simp [List.reverse_append]
    have harg : ((m + 1 : ℤ) - 1 + 1).toNat = m + 1 := by omega
    by_cases hx : qsign (signal.getD m 0) ≠ s0
    · refine ⟨m + 1, ?_, le_refl _, hsgn, ?_⟩
      · rw [scanBwd_def]
        rw [show (((m + 1 : Nat) : ℤ) - 1 + 1).toNat = m + 1 by omega, htake,
          scanBwdA_cons, if_pos hx]
        omega
      · rw [scanBwd_def]
        rw [show (((m + 1 : Nat) : ℤ) - 1 + 1).toNat = m + 1 by omega, htake,
          scanBwdA_cons, if_pos hx]
        omega
    · push_neg at hx
      obtain ⟨r, hr1, hr2, hr3, hr4⟩ := ih hmlt hx
      refine ⟨r, ?_, by omega, hr3, hr4⟩
      rw [scanBwd_def, show (((m + 1 : Nat) : ℤ) - 1 + 1).toNat = m + 1 by omega, htake,
        scanBwdA_cons, if_neg (by simpa using hx)]
      rw [scanBwd_def] at hr1
      rw [show ((m : ℤ) - 1 + 1).toNat = m by omega] at hr1
      rw [show ((m + 1 : Nat) : ℤ) - 1 - 1 = (m : ℤ) - 1 by omega]
      exact hr1

/-- Unfolding of the snapper on an in-bounds index. -/
theorem findOutwardZeroCrossing_in_bounds (signal : List ℚ) (i : ℤ) (d : Direction)
    (h : 0 ≤ i ∧ i < (signal.length : ℤ)) :
    findOutwardZeroCrossing signal i d =
      if qsign (signal.getD i.toNat 0) = 0 then i
      else match d with
        | Direction.forward =>
          scanFwd signal (qsign (signal.getD i.toNat 0)) (i.toNat + 1)
        | Direction.backward =>
          scanBwd signal (qsign (signal.getD i.toNat 0)) (i - 1) := by
  unfold findOutwardZeroCrossing
  rw [if_pos h]

/-- C9: zero-crossing snapping is idempotent: for every signal and direction,
snapping an index that is itself a snap result returns it unchanged - i.e.
`snap (snap i) = snap i` for every in-bounds index `i` (in particular an
index whose sample value is exactly zero snaps to itself). -/
theorem findOutwardZeroCrossing_idempotent (signal : List ℚ) (d : Direction) (i : ℤ)
    (h0 : 0 ≤ i) (h1 : i < (signal.length : ℤ)) :
    findOutwardZeroCrossing signal (findOutwardZeroCrossing signal i d) d =
      findOutwardZeroCrossing signal i d := by
  have hin : 0 ≤ i ∧ i < (signal.length : ℤ) := ⟨h0, h1⟩
  rw [findOutwardZeroCrossing_in_bounds signal i d hin]
  by_cases hz : qsign (signal.getD i.toNat 0) = 0
  · rw [if_pos hz, findOutwardZeroCrossing_in_bounds signal i d hin, if_pos hz]
  · rw [if_neg hz]
    cases d with
    | forward =>
      obtain ⟨r, hr1, hr2, hr3, hr4, hr5⟩ :=
        scanFwd_spec signal (qsign (signal.getD i.toNat 0))
          (signal.length - (i.toNat + 1)) (i.toNat + 1) rfl (by omega) (by omega)
          (by rw [Nat.add_sub_cancel])
      rw [hr1,
        findOutwardZeroCrossing_in_bounds signal (r : ℤ) Direction.forward
          ⟨Int.natCast_nonneg r, by exact_mod_cast hr3⟩,
        Int.toNat_natCast, hr4, if_neg hz]
      exact hr5
    | backward =>
      obtain ⟨r, hr1, hr2, hr3, hr4⟩ :=
        scanBwd_spec signal (qsign (signal.getD i.toNat 0)) i.toNat
          (by omega) rfl
      rw [show i - 1 = ((i.toNat : ℤ)) - 1 by omega, hr1,
        findOutwardZeroCrossing_in_bounds signal (r : ℤ) Direction.backward
          ⟨Int.natCast_nonneg r, by
            have : r < signal.length := by omega
            exact_mod_cast this⟩,
        Int.toNat_natCast, hr3, if_neg hz]
      exact hr4

/-- Witness for C9 at a concrete input: signal `[1, 2]`, index `0`,
direction forward. -/
theorem findOutwardZeroCrossing_idempotent_witness :
    findOutwardZeroCrossing [1, 2] (findOutwardZeroCrossing [1, 2] 0 Direction.forward)
      Direction.forward = findOutwardZeroCrossing [1, 2] 0 Direction.forward :=
  findOutwardZeroCrossing_idempotent [1, 2] Direction.forward 0 (by decide) (by decide)

/-- C10: on a non-empty signal an out-of-bounds index is clamped to the
nearest boundary index and returned immediately, with no sign-change scan;
the second and third conjuncts exhibit that the returned sample can have
nonzero amplitude (signal `[1, 1]`, index `5`, result `1`, sample `1 ≠ 0`). -/
theorem findOutwardZeroCrossing_clamps :
    (∀ (signal : List ℚ) (i : ℤ) (d : Direction), signal ≠ [] →
        (i < 0 ∨ (signal.length : ℤ) ≤ i) →
        findOutwardZeroCrossing signal i d =
          max 0 (min ((signal.length : ℤ) - 1) i)) ∧
    findOutwardZeroCrossing [1, 1] 5 Direction.backward = 1 ∧
    ([1, 1] : List ℚ).getD 1 0 ≠ 0 := by
  refine ⟨?_, by decide, by decide⟩
  intro signal i d _ h
  unfold findOutwardZeroCrossing
  rw [if_neg (by omega)]

/-- Witness for C10's universally quantified part at a concrete input:
signal `[2, 3]`, index `-4`. -/
theorem findOutwardZeroCrossing_clamps_witness :
    findOutwardZeroCrossing [2, 3] (-4) Direction.forward =
      max 0 (min ((([2, 3] : List ℚ).length : ℤ) - 1) (-4)) :=
  findOutwardZeroCrossing_clamps.1 [2, 3] (-4) Direction.forward (by decide)
    (by decide)

/-! ### Resynchronizer invariants (claim C2) -/

theorem flush_good {ins : Bool} {curr : List Nat} {segs : List (List Nat)}
    {P : List Nat → Prop}
    (hsegs : ∀ r ∈ segs, P r) (hcurr : curr ≠ [] → P curr) :
    ∀ r ∈ (if ins ∧ curr ≠ [] then segs ++ [curr] else segs), P r := by
  split
  · next h =>
    intro r hr
    rcases List.mem_append.mp hr with h1 | h2
    · exact hsegs r h1
    · rw [List.mem_singleton.mp h2]
      exact hcurr h.2
  · exact hsegs

/-- The single loop invariant of `CutParserService.run`: provided the
canonical sequence has strictly increasing ids, every run the loop can still
emit is non-empty, strictly increasing, and made of ids of `word`-type
entries of the full canonical sequence `ws0`. -/
theorem syncLoopF_inv :
    ∀ (fuel : Nat) (ts : List (List Char)) (ws : List ScribeWord) (ins : Bool)
      (curr : List Nat) (segs : List (List Nat)) (ws0 : List ScribeWord),
      (∀ w ∈ ws, w ∈ ws0) →
      List.Pairwise (fun a b => a.id < b.id) ws →
      List.Pairwise (· < ·) curr →
      (∀ a ∈ curr, ∀ w ∈ ws, a < w.id) →
      (∀ a ∈ curr, ∃ w, w ∈ ws0 ∧ w.id = a ∧ w.type = ScribeType.word) →
      (∀ r ∈ segs, r ≠ [] ∧ List.Pairwise (· < ·) r ∧
        ∀ a ∈ r, ∃ w, w ∈ ws0 ∧ w.id = a ∧ w.type = ScribeType.word) →
      ∀ r ∈ syncLoopF fuel ts ws ins curr segs,
        r ≠ [] ∧ List.Pairwise (· < ·) r ∧
          ∀ a ∈ r, ∃ w, w ∈ ws0 ∧ w.id = a ∧ w.type = ScribeType.word := by
  intro fuel
  induction fuel with
  | zero =>
    intro ts ws ins curr segs ws0 _ _ hc1 _ hc3 hsegs
    exact flush_good hsegs (fun hne => ⟨hne, hc1, hc3⟩)
  | succ fuel ih =>
    intro ts ws ins curr segs ws0 hsub hsort hc1 hc2 hc3 hsegs
    cases ts with
    | nil => exact flush_good hsegs (fun hne => ⟨hne, hc1, hc3⟩)
    | cons t ts' =>
      cases ws with
      | nil => exact flush_good hsegs (fun hne => ⟨hne, hc1, hc3⟩)
      | cons w ws' =>
        have hsub' : ∀ x ∈ ws', x ∈ ws0 := fun x hx => hsub x (List.mem_cons_of_mem w hx)
        have hsort' : List.Pairwise (fun a b => a.id < b.id) ws' := hsort.of_cons
        have hc2' : ∀ a ∈ curr, ∀ x ∈ ws', a < x.id :=
          fun a ha x hx => hc2 a ha x (List.mem_cons_of_mem w hx)
        simp only [syncLoopF]
        split
        · exact ih ts' (w :: ws') true [] segs ws0 hsub hsort (by simp) (by simp)
            (by simp) hsegs
        · split
          · split
            · refine ih ts' (w :: ws') false [] ?_ ws0 hsub hsort (by simp) (by simp)
                (by simp) ?_
              split
              · next h =>
                intro r hr
                rcases List.mem_append.mp hr with h1 | h2
                · exact hsegs r h1
                · rw [List.mem_singleton.mp h2]
                  exact ⟨h, hc1, hc3⟩
              · exact hsegs
            · exact ih ts' (w :: ws') ins curr segs ws0 hsub hsort hc1 hc2 hc3 hsegs
          · split
            · exact ih ts' (w :: ws') ins curr segs ws0 hsub hsort hc1 hc2 hc3 hsegs
            · split
              · exact ih (t :: ts') ws' ins curr segs ws0 hsub' hsort' hc1 hc2' hc3
                  hsegs
              · split
                · -- token matches the current canonical entry
                  next hty hmatch =>
                  refine ih ts' ws' ins _ segs ws0 hsub' hsort' ?_ ?_ ?_ hsegs
                  · split
                    · next hcond =>
                      rw [List.pairwise_append]
                      exact ⟨hc1, List.pairwise_singleton _ _,
                        fun a ha b hb => by
                          rw [List.mem_singleton.mp hb]
                          exact hc2 a ha w (List.mem_cons_self w ws')⟩
                    · exact hc1
                  · split
                    · next hcond =>
                      intro a ha x hx
                      rcases List.mem_append.mp ha with h1 | h2
                      · exact hc2' a h1 x hx
                      · rw [List.mem_singleton.mp h2]
                        exact (List.pairwise_cons.mp hsort).1 x hx
                    · exact hc2'
                  · split
                    · next hcond =>
                      intro a ha
                      rcases List.mem_append.mp ha with h1 | h2
                      · exact hc3 a h1
                      · rw [List.mem_singleton.mp h2]
                        exact ⟨w, hsub w (List.mem_cons_self w ws'), rfl, hcond.2⟩
                    · exact hc3
                · -- mismatch: bounded lookahead, then drop a token or the word
                  split
                  · exact ih _ (w :: ws') ins curr segs ws0 hsub hsort hc1 hc2 hc3
                      hsegs
                  · exact ih (t :: ts') ws' ins curr segs ws0 hsub' hsort' hc1 hc2'
                      hc3 hsegs

/-- C2: for a canonical sequence with strictly increasing ids, every run the
Resynchronizer returns is non-empty with strictly increasing ids, and every
id in it is the id of a `word`-type entry of the canonical sequence (so a
cut span containing no `word`-type entry never yields a run); an empty
transcript yields an empty result. -/
theorem runParser_invariants (ws : List ScribeWord) (t : List Char)
    (hsort : List.Pairwise (fun a b => a.id < b.id) ws) :
    (∀ r ∈ runParser ws t, r ≠ [] ∧ List.Pairwise (· < ·) r ∧
      ∀ a ∈ r, ∃ w, w ∈ ws ∧ w.id = a ∧ w.type = ScribeType.word) ∧
    runParser ws [] = [] := by
  constructor
  · exact syncLoopF_inv _ (tokenize t) ws false [] [] ws (fun _ h => h) hsort
      (by simp) (by simp) (by simp) (by simp)
  · rfl

/-- Witness for C2 at the spec's concrete scenario. -/
theorem runParser_invariants_witness :
    (∀ r ∈ runParser scribeRT "the <cut>um</cut> cat".data,
      r ≠ [] ∧ List.Pairwise (· < ·) r ∧
        ∀ a ∈ r, ∃ w, w ∈ scribeRT ∧ w.id = a ∧ w.type = ScribeType.word) ∧
    runParser scribeRT [] = [] :=
  runParser_invariants scribeRT "the <cut>um</cut> cat".data (by decide)

/-! ### Round-trip (claim C3), stage 1: the replace/split preprocessing -/

theorem pyReplaceF_fuel (pat rep : List Char) :
    ∀ (fuel fuel' : Nat) (s : List Char), s.length < fuel → s.length < fuel' →
      pyReplaceF pat rep fuel s = pyReplaceF pat rep fuel' s := by
  intro fuel
  induction fuel with
  | zero => intro fuel' s h _; exact absurd h (Nat.not_lt_zero _)
  | succ f ih =>
    intro fuel' s h h'
    cases fuel' with
    | zero => exact absurd h' (Nat.not_lt_zero _)
    | succ f' =>
      cases s with
      | nil => rfl
      | cons c cs =>
        simp only [pyReplaceF]
        by_cases hp : pat ≠ [] ∧ pat.isPrefixOf (c :: cs)
        · rw [if_pos hp, if_pos hp]
          congr 1
          apply ih
          · have := List.length_drop (pat.length - 1) cs
            simp only [List.length_cons] at h
            omega
          · have := List.length_drop (pat.length - 1) cs
            simp only [List.length_cons] at h'
            omega
        · rw [if_neg hp, if_neg hp]
          congr 1
          apply ih
          · simp only [List.length_cons] at h; omega
          · simp only [List.length_cons] at h'; omega

theorem pyReplace_cons_no_match (pat rep : List Char) (c : Char) (s : List Char)
    (h : ¬ (pat ≠ [] ∧ pat.isPrefixOf (c :: s))) :
    pyReplace (c :: s) pat rep = c :: pyReplace s pat rep := by
  unfold pyReplace
  rw [show (c :: s).length + 1 = (s.length + 1) + 1 from by simp]
  simp only [pyReplaceF]
  rw [if_neg h]

theorem pyReplace_clean_prefix (pat rep : List Char) (hpat : pat.head? = some '<') :
    ∀ (u v : List Char), (∀ c ∈ u, c ≠ '<') →
      pyReplace (u ++ v) pat rep = u ++ pyReplace v pat rep := by
  intro u
  induction u with
  | nil => intro v _; rfl
  | cons c u' ih =>
    intro v hcl
    have hc : c ≠ '<' := hcl c (List.mem_cons_self _ _)
    have hnp : ¬ (pat ≠ [] ∧ pat.isPrefixOf (c :: (u' ++ v))) := by
      rintro ⟨-, hpre⟩
      cases pat with
      | nil => simp at hpat
      | cons p ps =>
        have hp : p = '<' := by
          simp only [List.head?_cons, Option.some.injEq] at hpat
          exact hpat
        rw [List.isPrefixOf_cons₂] at hpre
        have := (Bool.and_eq_true _ _).mp hpre
        exact hc (by
          have hpc : p = c := by
            have := this.1
            exact eq_of_beq this
          rw [← hpc, hp])
    rw [List.cons_append, pyReplace_cons_no_match pat rep c (u' ++ v) hnp, ih v
      (fun x hx => hcl x (List.mem_cons_of_mem c hx)), List.cons_append]

theorem pyReplace_match (pat rep : List Char) (hpat : pat ≠ []) (v : List Char) :
    pyReplace (pat ++ v) pat rep = rep ++ pyReplace v pat rep := by
  cases pat with
  | nil => exact absurd rfl hpat
  | cons p ps =>
    unfold pyReplace
    rw [show ((p :: ps) ++ v).length + 1 = ((ps ++ v).length + 1) + 1 from by simp]
    rw [List.cons_append]
    simp only [pyReplaceF]
    rw [if_pos ⟨hpat, by
      rw [List.isPrefixOf_iff_prefix, ← List.cons_append]
      exact List.prefix_append _ _⟩]
    congr 1
    rw [show (p :: ps).length - 1 = ps.length from by simp,
      List.drop_left ps v]
    apply pyReplaceF_fuel
    · simp only [List.length_append]
      omega
    · omega
theorem pyReplace_close_through (v : List Char) :
    pyReplace (cutCloseTok ++ v) cutOpenTok " <cut> ".data =
      cutCloseTok ++ pyReplace v cutOpenTok " <cut> ".data := by
  rw [show cutCloseTok = '<' :: "/cut>".data from by decide]
  rw [List.cons_append, pyReplace_cons_no_match _ _ _ _ ?hno,
    pyReplace_clean_prefix _ _ (by decide) "/cut>".data v (by decide),
    List.cons_append]
  · rfl
  case hno =>
    rintro ⟨-, hpre⟩
    rw [show cutOpenTok = '<' :: 'c' :: "ut>".data from by decide,
      show "/cut>".data ++ v = '/' :: ("cut>".data ++ v) from rfl] at hpre
    simp only [List.isPrefixOf_cons₂, Bool.and_eq_true] at hpre
    exact absurd hpre.2.1 (by decide)

theorem pyReplace_open_through (v : List Char) :
    pyReplace (cutOpenTok ++ v) cutCloseTok " </cut> ".data =
      cutOpenTok ++ pyReplace v cutCloseTok " </cut> ".data := by
  rw [show cutOpenTok = '<' :: "cut>".data from by decide]
  rw [List.cons_append, pyReplace_cons_no_match _ _ _ _ ?hno,
    pyReplace_clean_prefix _ _ (by decide) "cut>".data v (by decide),
    List.cons_append]
  · rfl
  case hno =>
    rintro ⟨-, hpre⟩
    rw [show cutCloseTok = '<' :: '/' :: "cut>".data from by decide,
      show "cut>".data ++ v = 'c' :: ("ut>".data ++ v) from rfl] at hpre
    simp only [List.isPrefixOf_cons₂, Bool.and_eq_true] at hpre
    exact absurd hpre.2.1 (by decide)

theorem joinSp_chars : ∀ (ts : List (List Char)) (c : Char), c ∈ joinSp ts →
    c = ' ' ∨ ∃ t ∈ ts, c ∈ t := by
  intro ts
  induction ts with
  | nil => intro c h; simp [joinSp] at h
  | cons t ts' ih =>
    intro c h
    cases ts' with
    | nil =>
      right
      exact ⟨t, List.mem_singleton_self t, h⟩
    | cons t2 ts'' =>
      rw [show joinSp (t :: t2 :: ts'') = t ++ ' ' :: joinSp (t2 :: ts'') from rfl] at h
      rcases List.mem_append.mp h with h1 | h2
      · right; exact ⟨t, List.mem_cons_self _ _, h1⟩
      · rcases List.mem_cons.mp h2 with h3 | h4
        · left; exact h3
        · rcases ih c h4 with h5 | ⟨t', ht', hc⟩
          · left; exact h5
          · right; exact ⟨t', List.mem_cons_of_mem _ ht', hc⟩

/-- Every text token of a clean group is a nonempty, whitespace-free,
`<`-free word surviving normalization. -/
theorem groupTexts_clean (g : List ScribeWord) (hg : ∀ w ∈ g, cleanWord w) :
    ∀ t ∈ groupTexts g,
      t ≠ [] ∧ (∀ c ∈ t, ¬ c.isWhitespace ∧ c ≠ '<') ∧ normalizeWord t ≠ [] := by
  intro t ht
  unfold groupTexts at ht
  rcases List.mem_map.mp ht with ⟨w, hw, rfl⟩
  rcases List.mem_filter.mp hw with ⟨hwg, hwty⟩
  have hcw := hg w hwg (by
    intro hsp
    rw [hsp] at hwty
    simp at hwty)
  refine ⟨?_, hcw.1, hcw.2⟩
  intro hnil
  apply hcw.2
  rw [hnil]
  rfl

theorem joinSp_no_lt (ts : List (List Char))
    (hts : ∀ t ∈ ts, ∀ c ∈ t, c ≠ '<') :
    ∀ c ∈ joinSp ts, c ≠ '<' := by
  intro c hc
  rcases joinSp_chars ts c hc with h | ⟨t, ht, hct⟩
  · rw [h]; decide
  · exact hts t ht c hct

/-- Any group's space-joined texts contain no `<`. -/
theorem pyReplace_group_clean (pat rep : List Char) (hpat : pat.head? = some '<')
    (g : List ScribeWord) (X : List Char) (hg : ∀ w ∈ g, cleanWord w) :
    pyReplace (joinSp (groupTexts g) ++ X) pat rep =
      joinSp (groupTexts g) ++ pyReplace X pat rep :=
  pyReplace_clean_prefix pat rep hpat _ X
    (joinSp_no_lt _ (fun t ht c hc => ((groupTexts_clean g hg t ht).2.1 c hc).2))

theorem pyReplace_space (pat rep : List Char) (hpat : pat.head? = some '<')
    (v : List Char) :
    pyReplace (' ' :: v) pat rep = ' ' :: pyReplace v pat rep :=
  pyReplace_clean_prefix pat rep hpat [' '] v (by decide)

/-- The first `replace` call over a wrapped group and its continuation. -/
theorem cutPiece_replace1 (g : List ScribeWord) (T : List Char)
    (hg : ∀ w ∈ g, cleanWord w) :
    pyReplace ((cutOpenTok ++ joinSp (groupTexts g) ++ cutCloseTok) ++ T)
        cutOpenTok " <cut> ".data =
      " <cut> ".data ++ joinSp (groupTexts g) ++ cutCloseTok ++
        pyReplace T cutOpenTok " <cut> ".data := by
  have hop : cutOpenTok.head? = some '<' := by decide
  rw [show (cutOpenTok ++ joinSp (groupTexts g) ++ cutCloseTok) ++ T =
      cutOpenTok ++ (joinSp (groupTexts g) ++ (cutCloseTok ++ T)) from by
    simp [List.append_assoc]]
  rw [pyReplace_match _ _ (by decide), pyReplace_group_clean _ _ hop g _ hg,
    pyReplace_close_through]
  simp [List.append_assoc]

/-- The second `replace` call over the image of a wrapped group. -/
theorem cutPiece_replace2 (g : List ScribeWord) (T : List Char)
    (hg : ∀ w ∈ g, cleanWord w) :
    pyReplace ((" <cut> ".data ++ joinSp (groupTexts g) ++ cutCloseTok) ++ T)
        cutCloseTok " </cut> ".data =
      " <cut> ".data ++ joinSp (groupTexts g) ++ " </cut> ".data ++
        pyReplace T cutCloseTok " </cut> ".data := by
  have hcl : cutCloseTok.head? = some '<' := by decide
  rw [show (" <cut> ".data ++ joinSp (groupTexts g) ++ cutCloseTok) ++ T =
      ' ' :: (cutOpenTok ++ (' ' :: (joinSp (groupTexts g) ++ (cutCloseTok ++ T))))
      from by simp only [List.append_assoc]; rfl]
  rw [pyReplace_space _ _ hcl, pyReplace_open_through, pyReplace_space _ _ hcl,
    pyReplace_group_clean _ _ hcl g _ hg, pyReplace_match _ _ (by decide)]
  simp only [List.append_assoc, List.cons_append, List.nil_append]
  rfl

/-- Both delimiter-padding `replace` calls, acting on a rendered plan,
produce the space-padded rendering. -/
theorem doubleReplace_renderPlan :
    ∀ (plan : List (Bool × List ScribeWord)),
      (∀ w ∈ planWords plan, cleanWord w) →
      pyReplace (pyReplace (renderPlan plan) cutOpenTok " <cut> ".data)
          cutCloseTok " </cut> ".data =
        joinSp (plan.map spacedGroup) := by
  intro plan
  induction plan with
  | nil => intro _; rfl
  | cons bg rest ih =>
    intro hclean
    obtain ⟨b, g⟩ := bg
    have hg : ∀ w ∈ g, cleanWord w := fun w hw => hclean w (by
      show w ∈ g ++ planWords rest
      exact List.mem_append.mpr (Or.inl hw))
    have hrest : ∀ w ∈ planWords rest, cleanWord w := fun w hw => hclean w (by
      show w ∈ g ++ planWords rest
      exact List.mem_append.mpr (Or.inr hw))
    have ihr := ih hrest
    have hop : cutOpenTok.head? = some '<' := by decide
    have hcl : cutCloseTok.head? = some '<' := by decide
    have hnil1 : pyReplace [] cutOpenTok " <cut> ".data = [] := rfl
    have hnil2 : pyReplace [] cutCloseTok " </cut> ".data = [] := rfl
    cases rest with
    | nil =>
      cases b with
      | false =>
        show pyReplace (pyReplace (joinSp (groupTexts g)) cutOpenTok " <cut> ".data)
            cutCloseTok " </cut> ".data = joinSp (groupTexts g)
        have h1 : pyReplace (joinSp (groupTexts g)) cutOpenTok " <cut> ".data =
            joinSp (groupTexts g) := by
          calc pyReplace (joinSp (groupTexts g)) cutOpenTok " <cut> ".data
              = pyReplace (joinSp (groupTexts g) ++ []) cutOpenTok " <cut> ".data := by
                rw [List.append_nil]
            _ = joinSp (groupTexts g) := by
                rw [pyReplace_group_clean _ _ hop g [] hg, hnil1, List.append_nil]
        rw [h1]
        calc pyReplace (joinSp (groupTexts g)) cutCloseTok " </cut> ".data
            = pyReplace (joinSp (groupTexts g) ++ []) cutCloseTok " </cut> ".data := by
              rw [List.append_nil]
          _ = joinSp (groupTexts g) := by
              rw [pyReplace_group_clean _ _ hcl g [] hg, hnil2, List.append_nil]
      | true =>
        show pyReplace
            (pyReplace (cutOpenTok ++ joinSp (groupTexts g) ++ cutCloseTok)
              cutOpenTok " <cut> ".data) cutCloseTok " </cut> ".data =
          " <cut> ".data ++ joinSp (groupTexts g) ++ " </cut> ".data
        rw [show cutOpenTok ++ joinSp (groupTexts g) ++ cutCloseTok =
            (cutOpenTok ++ joinSp (groupTexts g) ++ cutCloseTok) ++ [] from by
          rw [List.append_nil]]
        rw [cutPiece_replace1 g [] hg, hnil1, cutPiece_replace2 g _ hg, hnil2]
        rw [List.append_nil]
    | cons r rs =>
      cases b with
      | false =>
        show pyReplace
            (pyReplace (joinSp (groupTexts g) ++
              ' ' :: renderPlan (r :: rs)) cutOpenTok " <cut> ".data)
            cutCloseTok " </cut> ".data =
          joinSp (groupTexts g) ++ ' ' :: joinSp ((r :: rs).map spacedGroup)
        rw [pyReplace_group_clean _ _ hop g _ hg, pyReplace_space _ _ hop,
          pyReplace_group_clean _ _ hcl g _ hg, pyReplace_space _ _ hcl, ihr]
      | true =>
        show pyReplace
            (pyReplace ((cutOpenTok ++ joinSp (groupTexts g) ++ cutCloseTok) ++
              ' ' :: renderPlan (r :: rs)) cutOpenTok " <cut> ".data)
            cutCloseTok " </cut> ".data =
          (" <cut> ".data ++ joinSp (groupTexts g) ++ " </cut> ".data) ++
            ' ' :: joinSp ((r :: rs).map spacedGroup)
        rw [cutPiece_replace1 g _ hg, pyReplace_space _ _ hop,
          show " <cut> ".data ++ joinSp (groupTexts g) ++ cutCloseTok ++
              ' ' :: pyReplace (renderPlan (r :: rs)) cutOpenTok " <cut> ".data =
            (" <cut> ".data ++ joinSp (groupTexts g) ++ cutCloseTok) ++
              ' ' :: pyReplace (renderPlan (r :: rs)) cutOpenTok " <cut> ".data from
            rfl,
          cutPiece_replace2 g _ hg, pyReplace_space _ _ hcl, ihr]

theorem splitWsA_nonws (u : List Char) :
    ∀ (acc v : List Char), (∀ c ∈ u, ¬ c.isWhitespace) →
      splitWsA acc (u ++ v) = splitWsA (u.reverse ++ acc) v := by
  induction u with
  | nil => intro acc v _; rfl
  | cons c u' ih =>
    intro acc v hws
    rw [List.cons_append,
      show splitWsA acc (c :: (u' ++ v)) =
        if c.isWhitespace then
          (if acc = [] then splitWsA [] (u' ++ v)
           else acc.reverse :: splitWsA [] (u' ++ v))
        else splitWsA (c :: acc) (u' ++ v) from rfl,
      if_neg (by
        have := hws c (List.mem_cons_self _ _)
        simpa using this),
      ih (c :: acc) v (fun x hx => hws x (List.mem_cons_of_mem c hx))]
    simp

theorem splitWsA_space (acc v : List Char) :
    splitWsA acc (' ' :: v) =
      if acc = [] then splitWsA [] v else acc.reverse :: splitWsA [] v := by
  rw [show splitWsA acc (' ' :: v) =
    if (' ').isWhitespace then
      (if acc = [] then splitWsA [] v else acc.reverse :: splitWsA [] v)
    else splitWsA (' ' :: acc) v from rfl, if_pos (by decide)]

theorem splitWs_space (v : List Char) : splitWsA [] (' ' :: v) = splitWsA [] v := by
  rw [splitWsA_space, if_pos rfl]

theorem splitWsA_token_space (t v : List Char) (ht : t ≠ [])
    (hws : ∀ c ∈ t, ¬ c.isWhitespace) :
    splitWsA [] (t ++ ' ' :: v) = t :: splitWsA [] v := by
  rw [splitWsA_nonws t [] (' ' :: v) hws, splitWsA_space,
    if_neg (by simpa using ht)]
  simp

theorem splitWsA_token_end (t : List Char) (ht : t ≠ [])
    (hws : ∀ c ∈ t, ¬ c.isWhitespace) :
    splitWsA [] t = [t] := by
  conv_lhs => rw [show t = t ++ [] from (List.append_nil t).symm]
  rw [splitWsA_nonws t [] [] hws]
  simp only [splitWsA, List.append_nil]
  rw [if_neg (by simpa using ht)]
  simp

theorem splitWsA_joinSp_space :
    ∀ (ts : List (List Char)) (v : List Char),
      (∀ t ∈ ts, t ≠ [] ∧ ∀ c ∈ t, ¬ c.isWhitespace) →
      splitWsA [] (joinSp ts ++ ' ' :: v) = ts ++ splitWsA [] v := by
  intro ts
  induction ts with
  | nil => intro v _; exact splitWs_space v
  | cons t ts' ih =>
    intro v hts
    have ht := hts t (List.mem_cons_self _ _)
    cases ts' with
    | nil =>
      rw [show joinSp [t] = t from rfl, splitWsA_token_space t v ht.1 ht.2]
      rfl
    | cons t2 ts'' =>
      rw [show joinSp (t :: t2 :: ts'') = t ++ ' ' :: joinSp (t2 :: ts'') from rfl,
        List.append_assoc, List.cons_append, splitWsA_token_space t _ ht.1 ht.2,
        ih v (fun x hx => hts x (List.mem_cons_of_mem t hx))]
      rfl

theorem splitWsA_joinSp_end :
    ∀ (ts : List (List Char)),
      (∀ t ∈ ts, t ≠ [] ∧ ∀ c ∈ t, ¬ c.isWhitespace) →
      splitWsA [] (joinSp ts) = ts := by
  intro ts
  induction ts with
  | nil => intro _; rfl
  | cons t ts' ih =>
    intro hts
    have ht := hts t (List.mem_cons_self _ _)
    cases ts' with
    | nil => exact splitWsA_token_end t ht.1 ht.2
    | cons t2 ts'' =>
      rw [show joinSp (t :: t2 :: ts'') = t ++ ' ' :: joinSp (t2 :: ts'') from rfl,
        splitWsA_token_space t _ ht.1 ht.2,
        ih (fun x hx => hts x (List.mem_cons_of_mem t hx))]

/-- Splitting the space-padded rendering recovers the expected token
stream. -/
theorem splitWs_spacedPlan :
    ∀ (plan : List (Bool × List ScribeWord)),
      (∀ w ∈ planWords plan, cleanWord w) →
      splitWsA [] (joinSp (plan.map spacedGroup)) = planTokens plan := by
  intro plan
  induction plan with
  | nil => intro _; rfl
  | cons bg rest ih =>
    intro hclean
    obtain ⟨b, g⟩ := bg
    have hg : ∀ w ∈ g, cleanWord w := fun w hw => hclean w (by
      show w ∈ g ++ planWords rest
      exact List.mem_append.mpr (Or.inl hw))
    have hrest : ∀ w ∈ planWords rest, cleanWord w := fun w hw => hclean w (by
      show w ∈ g ++ planWords rest
      exact List.mem_append.mpr (Or.inr hw))
    have ihr := ih hrest
    have htoks : ∀ t ∈ groupTexts g, t ≠ [] ∧ ∀ c ∈ t, ¬ c.isWhitespace :=
      fun t ht => ⟨(groupTexts_clean g hg t ht).1,
        fun c hc => ((groupTexts_clean g hg t ht).2.1 c hc).1⟩
    have hopen : (cutOpenTok ≠ []) ∧ ∀ c ∈ cutOpenTok, ¬ c.isWhitespace := by decide
    have hclose : (cutCloseTok ≠ []) ∧ ∀ c ∈ cutCloseTok, ¬ c.isWhitespace := by
      decide
    cases rest with
    | nil =>
      cases b with
      | false =>
        show splitWsA [] (joinSp (groupTexts g)) = groupTexts g ++ planTokens []
        rw [splitWsA_joinSp_end (groupTexts g) htoks]
        simp [planTokens]
      | true =>
        show splitWsA []
            (" <cut> ".data ++ joinSp (groupTexts g) ++ " </cut> ".data) =
          cutOpenTok :: (groupTexts g ++ cutCloseTok :: planTokens [])
        rw [show " <cut> ".data ++ joinSp (groupTexts g) ++ " </cut> ".data =
            ' ' :: (cutOpenTok ++ ' ' ::
              (joinSp (groupTexts g) ++ ' ' :: (cutCloseTok ++ ' ' :: []))) from by
          simp only [List.append_assoc]; rfl]
        rw [splitWs_space, splitWsA_token_space _ _ hopen.1 hopen.2,
          splitWsA_joinSp_space (groupTexts g) _ htoks,
          splitWsA_token_space _ _ hclose.1 hclose.2]
        rfl
    | cons r rs =>
      cases b with
      | false =>
        show splitWsA []
            (joinSp (groupTexts g) ++ ' ' :: joinSp ((r :: rs).map spacedGroup)) =
          groupTexts g ++ planTokens (r :: rs)
        rw [splitWsA_joinSp_space (groupTexts g) _ htoks, ihr]
      | true =>
        show splitWsA []
            ((" <cut> ".data ++ joinSp (groupTexts g) ++ " </cut> ".data) ++
              ' ' :: joinSp ((r :: rs).map spacedGroup)) =
          cutOpenTok :: (groupTexts g ++ cutCloseTok :: planTokens (r :: rs))
        rw [show (" <cut> ".data ++ joinSp (groupTexts g) ++ " </cut> ".data) ++
            ' ' :: joinSp ((r :: rs).map spacedGroup) =
            ' ' :: (cutOpenTok ++ ' ' ::
              (joinSp (groupTexts g) ++ ' ' :: (cutCloseTok ++ ' ' :: ' ' ::
                joinSp ((r :: rs).map spacedGroup)))) from by
          simp only [List.append_assoc]; rfl]
        rw [splitWs_space, splitWsA_token_space _ _ hopen.1 hopen.2,
          splitWsA_joinSp_space (groupTexts g) _ htoks,
          splitWsA_token_space _ _ hclose.1 hclose.2, splitWs_space, ihr]

/-- Stage 1 of the round-trip: tokenizing a rendered plan yields exactly the
delimiters and word texts in order. -/
theorem tokenize_renderPlan (plan : List (Bool × List ScribeWord))
    (hclean : ∀ w ∈ planWords plan, cleanWord w) :
    tokenize (renderPlan plan) = planTokens plan := by
  unfold tokenize splitWs
  rw [doubleReplace_renderPlan plan hclean, splitWs_spacedPlan plan hclean]

/-! ### Round-trip (claim C3), stage 2: simulation of the loop on items -/

theorem syncLoopF_nil_ts (fuel : Nat) (ws : List ScribeWord) (ins : Bool)
    (curr : List Nat) (segs : List (List Nat)) :
    syncLoopF fuel [] ws ins curr segs =
      if ins ∧ curr ≠ [] then segs ++ [curr] else segs := by
  cases fuel <;> rfl

theorem syncLoopF_nil_ws (fuel : Nat) (ts : List (List Char)) (ins : Bool)
    (curr : List Nat) (segs : List (List Nat)) :
    syncLoopF fuel ts [] ins curr segs =
      if ins ∧ curr ≠ [] then segs ++ [curr] else segs := by
  cases fuel with
  | zero => rfl
  | succ f => cases ts <;> rfl

theorem syncLoopF_fuel :
    ∀ (fuel fuel' : Nat) (ts : List (List Char)) (ws : List ScribeWord) (ins : Bool)
      (curr : List Nat) (segs : List (List Nat)),
      ts.length + ws.length < fuel → ts.length + ws.length < fuel' →
      syncLoopF fuel ts ws ins curr segs = syncLoopF fuel' ts ws ins curr segs := by
  intro fuel
  induction fuel with
  | zero => intro fuel' ts ws ins curr segs h _; exact absurd h (Nat.not_lt_zero _)
  | succ f ih =>
    intro fuel' ts ws ins curr segs h h'
    cases fuel' with
    | zero => exact absurd h' (Nat.not_lt_zero _)
    | succ f' =>
      cases ts with
      | nil => rw [syncLoopF_nil_ts, syncLoopF_nil_ts]
      | cons t ts' =>
        cases ws with
        | nil => rw [syncLoopF_nil_ws, syncLoopF_nil_ws]
        | cons w ws' =>
          have hlen : ts'.length + ws'.length + 1 < f ∧ ts'.length + ws'.length + 1 < f' := by
            simp only [List.length_cons] at h h'
            omega
          simp only [syncLoopF]
          by_cases h1 : t = cutOpenTok
          · rw [if_pos h1, if_pos h1]
            exact ih f' ts' (w :: ws') true [] segs (by simp; omega) (by simp; omega)
          · rw [if_neg h1, if_neg h1]
            by_cases h2 : t = cutCloseTok
            · rw [if_pos h2, if_pos h2]
              by_cases h3 : ins = true
              · rw [if_pos h3, if_pos h3]
                exact ih f' ts' (w :: ws') false [] _ (by simp; omega) (by simp; omega)
              · rw [if_neg h3, if_neg h3]
                exact ih f' ts' (w :: ws') ins curr segs (by simp; omega)
                  (by simp; omega)
            · rw [if_neg h2, if_neg h2]
              by_cases h4 : normalizeWord t = []
              · rw [if_pos h4, if_pos h4]
                exact ih f' ts' (w :: ws') ins curr segs (by simp; omega)
                  (by simp; omega)
              · rw [if_neg h4, if_neg h4]
                by_cases h5 : w.type = ScribeType.spacing
                · rw [if_pos h5, if_pos h5]
                  exact ih f' (t :: ts') ws' ins curr segs (by simp; omega)
                    (by simp; omega)
                · rw [if_neg h5, if_neg h5]
                  by_cases h6 : normalizeWord t = normalizeWord w.text
                  · rw [if_pos h6, if_pos h6]
                    exact ih f' ts' ws' ins _ segs (by omega) (by omega)
                  · rw [if_neg h6, if_neg h6]
                    cases hm : findResync (normalizeWord w.text) ts' with
                    | some j =>
                      refine ih f' (ts'.drop j) (w :: ws') ins curr segs ?_ ?_ <;>
                        · have := List.length_drop j ts'
                          simp only [List.length_cons] at h h' ⊢
                          omega
                    | none =>
                      exact ih f' (t :: ts') ws' ins curr segs (by simp; omega)
                        (by simp; omega)

theorem itemTokens_append : ∀ (a b : List SyncItem),
    itemTokens (a ++ b) = itemTokens a ++ itemTokens b := by
  intro a b
  induction a with
  | nil => rfl
  | cons it a' ih =>
    cases it with
    | tagOpen => exact congrArg (fun l => cutOpenTok :: l) ih
    | tagClose => exact congrArg (fun l => cutCloseTok :: l) ih
    | entry w =>
      show itemTokens (SyncItem.entry w :: (a' ++ b)) =
        itemTokens (SyncItem.entry w :: a') ++ itemTokens b
      by_cases hw : w.type = ScribeType.spacing
      · simp only [itemTokens, if_pos hw]
        exact ih
      · simp only [itemTokens, if_neg hw]
        rw [List.cons_append]
        exact congrArg (fun l => w.text :: l) ih

theorem itemWords_append : ∀ (a b : List SyncItem),
    itemWords (a ++ b) = itemWords a ++ itemWords b := by
  intro a b
  induction a with
  | nil => rfl
  | cons it a' ih =>
    cases it with
    | tagOpen => exact ih
    | tagClose => exact ih
    | entry w =>
      show w :: itemWords (a' ++ b) = (w :: itemWords a') ++ itemWords b
      rw [List.cons_append]
      exact congrArg (fun l => w :: l) ih

theorem itemTokens_entries : ∀ (g : List ScribeWord),
    itemTokens (g.map SyncItem.entry) = groupTexts g := by
  intro g
  induction g with
  | nil => rfl
  | cons w g' ih =>
    simp only [List.map_cons, itemTokens, ih]
    unfold groupTexts
    by_cases hw : w.type = ScribeType.spacing
    · rw [if_pos hw]
      rw [List.filter_cons_of_neg (by simpa using hw)]
    · rw [if_neg hw]
      rw [List.filter_cons_of_pos (by simpa using hw), List.map_cons]

theorem itemWords_entries : ∀ (g : List ScribeWord),
    itemWords (g.map SyncItem.entry) = g := by
  intro g
  induction g with
  | nil => rfl
  | cons w g' ih => simp only [List.map_cons, itemWords, ih]

theorem itemTokens_planItems : ∀ (plan : List (Bool × List ScribeWord)),
    itemTokens (planItems plan) = planTokens plan := by
  intro plan
  induction plan with
  | nil => rfl
  | cons bg rest ih =>
    obtain ⟨b, g⟩ := bg
    cases b with
    | false =>
      show itemTokens (g.map SyncItem.entry ++ planItems rest) = _
      rw [itemTokens_append, itemTokens_entries, ih]
      rfl
    | true =>
      show itemTokens (SyncItem.tagOpen ::
        (g.map SyncItem.entry ++ SyncItem.tagClose :: planItems rest)) = _
      rw [show itemTokens (SyncItem.tagOpen ::
          (g.map SyncItem.entry ++ SyncItem.tagClose :: planItems rest)) =
        cutOpenTok :: itemTokens
          (g.map SyncItem.entry ++ SyncItem.tagClose :: planItems rest) from rfl]
      rw [itemTokens_append, itemTokens_entries,
        show itemTokens (SyncItem.tagClose :: planItems rest) =
          cutCloseTok :: itemTokens (planItems rest) from rfl, ih]
      rfl

theorem itemWords_planItems : ∀ (plan : List (Bool × List ScribeWord)),
    itemWords (planItems plan) = planWords plan := by
  intro plan
  induction plan with
  | nil => rfl
  | cons bg rest ih =>
    obtain ⟨b, g⟩ := bg
    cases b with
    | false =>
      show itemWords (g.map SyncItem.entry ++ planItems rest) = g ++ planWords rest
      rw [itemWords_append, itemWords_entries, ih]
    | true =>
      show itemWords (SyncItem.tagOpen ::
        (g.map SyncItem.entry ++ SyncItem.tagClose :: planItems rest)) =
        g ++ planWords rest
      rw [show itemWords (SyncItem.tagOpen ::
          (g.map SyncItem.entry ++ SyncItem.tagClose :: planItems rest)) =
        itemWords (g.map SyncItem.entry ++ SyncItem.tagClose :: planItems rest)
        from rfl]
      rw [itemWords_append, itemWords_entries,
        show itemWords (SyncItem.tagClose :: planItems rest) =
          itemWords (planItems rest) from rfl, ih]

theorem wfItems_entries : ∀ (g : List ScribeWord) (items : List SyncItem) (ins : Bool),
    wfItems items ins → wfItems (g.map SyncItem.entry ++ items) ins := by
  intro g
  induction g with
  | nil => intro items ins h; exact h
  | cons w g' ih =>
    intro items ins h
    show wfItems (SyncItem.entry w :: (g'.map SyncItem.entry ++ items)) ins
    exact ih items ins h

theorem wfItems_planItems : ∀ (plan : List (Bool × List ScribeWord)),
    wfItems (planItems plan) false := by
  intro plan
  induction plan with
  | nil => trivial
  | cons bg rest ih =>
    obtain ⟨b, g⟩ := bg
    cases b with
    | false => exact wfItems_entries g (planItems rest) false ih
    | true =>
      show wfItems (SyncItem.tagOpen ::
        (g.map SyncItem.entry ++ SyncItem.tagClose :: planItems rest)) false
      refine ⟨rfl, ?_⟩
      exact wfItems_entries g _ true ⟨rfl, ih⟩

theorem itemsRun_no_words :
    ∀ (items : List SyncItem) (ins : Bool) (segs : List (List Nat)),
      itemWords items = [] → wfItems items ins →
      itemsRun items ins [] segs = segs := by
  intro items
  induction items with
  | nil => intro ins segs _ _; simp [itemsRun]
  | cons it rest ih =>
    intro ins segs hw hwf
    cases it with
    | tagOpen =>
      replace hwf : ins = false ∧ wfItems rest true := hwf
      exact ih true segs hw hwf.2
    | tagClose =>
      replace hwf : ins = true ∧ wfItems rest false := hwf
      show (if ins = true then itemsRun rest false []
          (if [] ≠ [] then segs ++ [[]] else segs)
        else itemsRun rest false [] segs) = segs
      rw [if_pos hwf.1, if_neg (by simp)]
      exact ih false segs hw hwf.2
    | entry w => simp [itemWords] at hw

/-- Spacing entries sitting before the canonical cursor are skipped (without
consuming the current token) as soon as a plain token is processed. -/
theorem syncSkipSp :
    ∀ (sp : List ScribeWord) (t : List Char) (ts : List (List Char))
      (ws : List ScribeWord) (ins : Bool) (curr : List Nat)
      (segs : List (List Nat)) (fuel fuel' : Nat),
      (∀ w ∈ sp, w.type = ScribeType.spacing) →
      t ≠ cutOpenTok → t ≠ cutCloseTok → normalizeWord t ≠ [] →
      (t :: ts).length + (sp ++ ws).length < fuel →
      (t :: ts).length + ws.length < fuel' →
      syncLoopF fuel (t :: ts) (sp ++ ws) ins curr segs =
        syncLoopF fuel' (t :: ts) ws ins curr segs := by
  intro sp
  induction sp with
  | nil =>
    intro t ts ws ins curr segs fuel fuel' _ _ _ _ hf hf'
    exact syncLoopF_fuel fuel fuel' (t :: ts) ws ins curr segs (by simpa using hf) hf'
  | cons w sp' ih =>
    intro t ts ws ins curr segs fuel fuel' hsp h1 h2 h3 hf hf'
    cases fuel with
    | zero => exact absurd hf (Nat.not_lt_zero _)
    | succ f =>
      rw [List.cons_append]
      simp only [syncLoopF]
      rw [if_neg h1, if_neg h2, if_neg h3,
        if_pos (hsp w (List.mem_cons_self _ _))]
      refine ih t ts ws ins curr segs f fuel'
        (fun x hx => hsp x (List.mem_cons_of_mem w hx)) h1 h2 h3 ?_ hf'
      simp only [List.length_cons, List.length_append] at hf ⊢
      omega

/-- The simulation: on the tokens and canonical entries of a well-bracketed,
clean item list (with an arbitrary spacing prefix pending before the
canonical cursor), the Python loop computes exactly the abstract item
machine. -/
theorem syncSim :
    ∀ (items : List SyncItem) (sp : List ScribeWord) (ins : Bool) (curr : List Nat)
      (segs : List (List Nat)) (fuel : Nat),
      (itemTokens items).length + (sp ++ itemWords items).length < fuel →
      (∀ w ∈ sp, w.type = ScribeType.spacing) →
      (∀ w ∈ itemWords items, cleanWord w) →
      wfItems items ins →
      syncLoopF fuel (itemTokens items) (sp ++ itemWords items) ins curr segs =
        itemsRun items ins curr segs := by
  intro items
  induction items with
  | nil =>
    intro sp ins curr segs fuel _ _ _ _
    rw [show itemTokens [] = [] from rfl, syncLoopF_nil_ts]
    rfl
  | cons it rest ih =>
    intro sp ins curr segs fuel hf hsp hcl hwf
    cases it with
    | tagOpen =>
      replace hwf : ins = false ∧ wfItems rest true := hwf
      obtain ⟨rfl, hwf'⟩ := hwf
      rw [show itemTokens (SyncItem.tagOpen :: rest) = cutOpenTok :: itemTokens rest
        from rfl] at hf ⊢
      rw [show itemWords (SyncItem.tagOpen :: rest) = itemWords rest from rfl]
        at hf hcl ⊢
      show syncLoopF fuel (cutOpenTok :: itemTokens rest) (sp ++ itemWords rest)
          false curr segs = itemsRun rest true [] segs
      cases hws : sp ++ itemWords rest with
      | nil =>
        rw [syncLoopF_nil_ws, if_neg (by simp)]
        have hwr : itemWords rest = [] := (List.append_eq_nil.mp hws).2
        rw [itemsRun_no_words rest true segs hwr hwf']
      | cons w ws' =>
        cases fuel with
        | zero => exact absurd hf (Nat.not_lt_zero _)
        | succ f =>
          simp only [syncLoopF]
          rw [if_pos trivial, ← hws]
          rw [syncLoopF_fuel f
            ((itemTokens rest).length + (sp ++ itemWords rest).length + 1)
            (itemTokens rest) (sp ++ itemWords rest) true [] segs
            (by simp only [List.length_cons] at hf; omega) (by omega)]
          exact ih sp true [] segs _ (by omega) hsp hcl hwf'
    | tagClose =>
      replace hwf : ins = true ∧ wfItems rest false := hwf
      obtain ⟨rfl, hwf'⟩ := hwf
      rw [show itemTokens (SyncItem.tagClose :: rest) = cutCloseTok :: itemTokens rest
        from rfl] at hf ⊢
      rw [show itemWords (SyncItem.tagClose :: rest) = itemWords rest from rfl]
        at hf hcl ⊢
      show syncLoopF fuel (cutCloseTok :: itemTokens rest) (sp ++ itemWords rest)
          true curr segs =
        itemsRun rest false [] (if curr ≠ [] then segs ++ [curr] else segs)
      cases hws : sp ++ itemWords rest with
      | nil =>
        rw [syncLoopF_nil_ws]
        have hwr : itemWords rest = [] := (List.append_eq_nil.mp hws).2
        rw [itemsRun_no_words rest false _ hwr hwf']
        simp
      | cons w ws' =>
        cases fuel with
        | zero => exact absurd hf (Nat.not_lt_zero _)
        | succ f =>
          simp only [syncLoopF]
          rw [if_pos trivial, if_pos trivial, ← hws]
          rw [syncLoopF_fuel f
            ((itemTokens rest).length + (sp ++ itemWords rest).length + 1)
            (itemTokens rest) (sp ++ itemWords rest) false []
            (if curr ≠ [] then segs ++ [curr] else segs)
            (by simp only [List.length_cons] at hf; omega) (by omega)]
          exact ih sp false [] _ _ (by omega) hsp hcl hwf'
    | entry w =>
      replace hwf : wfItems rest ins := hwf
      have hclw : cleanWord w := hcl w (by
        show w ∈ w :: itemWords rest
        exact List.mem_cons_self _ _)
      have hcl' : ∀ x ∈ itemWords rest, cleanWord x := fun x hx => hcl x (by
        show x ∈ w :: itemWords rest
        exact List.mem_cons_of_mem _ hx)
      by_cases hwsp : w.type = ScribeType.spacing
      · rw [show itemTokens (SyncItem.entry w :: rest) = itemTokens rest from by
          simp [itemTokens, hwsp]] at hf ⊢
        rw [show itemWords (SyncItem.entry w :: rest) = w :: itemWords rest from rfl]
          at hf ⊢
        rw [show sp ++ w :: itemWords rest = (sp ++ [w]) ++ itemWords rest from by
          simp] at hf ⊢
        rw [ih (sp ++ [w]) ins curr segs fuel hf
          (by
            intro x hx
            rcases List.mem_append.mp hx with h | h
            · exact hsp x h
            · rw [List.mem_singleton.mp h]; exact hwsp)
          hcl' hwf]
        show itemsRun rest ins curr segs = itemsRun rest ins
          (if ins ∧ w.type = ScribeType.word then curr ++ [w.id] else curr) segs
        rw [if_neg (by
          rintro ⟨-, hty⟩
          rw [hwsp] at hty
          exact ScribeType.noConfusion hty)]
      · have hclw' := hclw hwsp
        have hlt : '<' ∈ cutOpenTok := by decide
        have hlt2 : '<' ∈ cutCloseTok := by decide
        have ht1 : w.text ≠ cutOpenTok := by
          intro he
          exact (hclw'.1 '<' (he ▸ hlt)).2 rfl
        have ht2 : w.text ≠ cutCloseTok := by
          intro he
          exact (hclw'.1 '<' (he ▸ hlt2)).2 rfl
        have ht3 : normalizeWord w.text ≠ [] := hclw'.2
        rw [show itemTokens (SyncItem.entry w :: rest) =
          w.text :: itemTokens rest from by simp [itemTokens, hwsp]] at hf ⊢
        rw [show itemWords (SyncItem.entry w :: rest) = w :: itemWords rest from rfl]
          at hf ⊢
        rw [syncSkipSp sp w.text (itemTokens rest) (w :: itemWords rest) ins curr
          segs fuel
          ((w.text :: itemTokens rest).length + (w :: itemWords rest).length + 1)
          hsp ht1 ht2 ht3
          (by simpa using hf) (by omega)]
        simp only [syncLoopF]
        rw [if_neg ht1, if_neg ht2, if_neg ht3, if_neg hwsp, if_pos trivial]
        rw [syncLoopF_fuel
          ((w.text :: itemTokens rest).length + (w :: itemWords rest).length)
          ((itemTokens rest).length + ([] ++ itemWords rest).length + 1)
          (itemTokens rest) (itemWords rest) ins
          (if ins ∧ w.type = ScribeType.word then curr ++ [w.id] else curr) segs
          (by simp only [List.length_cons, List.nil_append]; omega)
          (by simp only [List.nil_append]; omega)]
        exact ih [] ins _ segs _ (by simp only [List.nil_append]; omega) (by simp)
          hcl' hwf

/-! ### Round-trip (claim C3), stage 3: the item machine on a plan -/

theorem itemsRun_entries_outside :
    ∀ (g : List ScribeWord) (items : List SyncItem) (segs : List (List Nat)),
      itemsRun (g.map SyncItem.entry ++ items) false [] segs =
        itemsRun items false [] segs := by
  intro g
  induction g with
  | nil => intro items segs; rfl
  | cons w g' ih =>
    intro items segs
    show itemsRun (g'.map SyncItem.entry ++ items) false
      (if false = true ∧ w.type = ScribeType.word then [] ++ [w.id] else []) segs =
      itemsRun items false [] segs
    rw [if_neg (by simp)]
    exact ih items segs

theorem itemsRun_entries_inside :
    ∀ (g : List ScribeWord) (items : List SyncItem) (curr : List Nat)
      (segs : List (List Nat)),
      itemsRun (g.map SyncItem.entry ++ items) true curr segs =
        itemsRun items true (curr ++ wordIds g) segs := by
  intro g
  induction g with
  | nil => intro items curr segs; simp [wordIds]
  | cons w g' ih =>
    intro items curr segs
    show itemsRun (g'.map SyncItem.entry ++ items) true
        (if true = true ∧ w.type = ScribeType.word then curr ++ [w.id] else curr)
        segs =
      itemsRun items true (curr ++ wordIds (w :: g')) segs
    by_cases hw : w.type = ScribeType.word
    · rw [if_pos ⟨rfl, hw⟩, ih]
      congr 1
      unfold wordIds
      rw [List.filter_cons_of_pos (by simpa using hw), List.map_cons]
      simp
    · rw [if_neg (by
        rintro ⟨-, h⟩
        exact hw h), ih]
      congr 1
      unfold wordIds
      rw [List.filter_cons_of_neg (by simpa using hw)]

theorem itemsRun_planItems :
    ∀ (plan : List (Bool × List ScribeWord)) (segs : List (List Nat)),
      itemsRun (planItems plan) false [] segs = segs ++ planExpected plan := by
  intro plan
  induction plan with
  | nil => intro segs; simp [planItems, itemsRun, planExpected]
  | cons bg rest ih =>
    intro segs
    obtain ⟨b, g⟩ := bg
    cases b with
    | false =>
      show itemsRun (g.map SyncItem.entry ++ planItems rest) false [] segs =
        segs ++ planExpected ((false, g) :: rest)
      rw [itemsRun_entries_outside, ih]
      rfl
    | true =>
      show itemsRun (g.map SyncItem.entry ++ SyncItem.tagClose :: planItems rest)
          true [] segs = segs ++ planExpected ((true, g) :: rest)
      rw [itemsRun_entries_inside]
      show itemsRun (planItems rest) false []
          (if [] ++ wordIds g ≠ [] then segs ++ [[] ++ wordIds g] else segs) =
        segs ++ planExpected ((true, g) :: rest)
      rw [ih]
      show (if [] ++ wordIds g ≠ [] then segs ++ [[] ++ wordIds g] else segs) ++
          planExpected rest =
        segs ++ (if wordIds g = [] then planExpected rest
          else wordIds g :: planExpected rest)
      by_cases hw : wordIds g = []
      · rw [if_neg (by simpa using hw), if_pos hw]
      · rw [if_pos (by simpa using hw), if_neg hw]
        simp

/-- C3 (amended): the Resynchronizer round-trip.  If the marked transcript
is produced by rendering the canonical words verbatim with `<cut>`/`</cut>`
glued around the wrapped groups, and every non-spacing word text is a
single whitespace-free token, free of `<`, whose normalization is
non-empty, then the parser returns exactly the wrapped groups' word-id
lists (wrapped groups containing no `word`-type entry yield no run). -/
theorem runParser_round_trip (plan : List (Bool × List ScribeWord))
    (hclean : ∀ w ∈ planWords plan, cleanWord w) :
    runParser (planWords plan) (renderPlan plan) = planExpected plan := by
  unfold runParser
  rw [tokenize_renderPlan plan hclean, ← itemTokens_planItems plan,
    ← itemWords_planItems plan]
  have key := syncSim (planItems plan) [] false [] []
    ((itemTokens (planItems plan)).length + (itemWords (planItems plan)).length + 1)
    (by simp only [List.nil_append]; omega) (by simp)
    (by rw [itemWords_planItems]; exact hclean) (wfItems_planItems plan)
  rw [List.nil_append] at key
  rw [key, itemsRun_planItems plan []]
  rfl

/-- Witness for C3 (amended) at the spec's scenario: canonical words
`the`/`um`/`cat`, transcript `"the <cut>um</cut> cat"`, result `[[1]]`. -/
theorem runParser_round_trip_witness :
    runParser (planWords planRT) (renderPlan planRT) = planExpected planRT ∧
    renderPlan planRT = "the <cut>um</cut> cat".data ∧
    planExpected planRT = [[1]] ∧ planWords planRT = scribeRT :=
  ⟨runParser_round_trip planRT (by decide), by decide, by decide, by decide⟩

/-- Counterexample to C3 as stated: wrapping the punctuation-only word
`"!!!"` (id 1) produces the transcript `"the <cut>!!!</cut> cat"`, an
exact, case- and punctuation-identical copy of the canonical text, yet the
parser returns `[]` instead of `[[1]]`: the wrapped word's normalized text
is empty, so the token is skipped and the run stays empty. -/
theorem runParser_round_trip_counterexample :
    renderPlan planBang = "the <cut>!!!</cut> cat".data ∧
    runParser (planWords planBang) "the <cut>!!!</cut> cat".data = [] ∧
    ([[1]] : List (List Nat)) ≠ [] := by
  refine ⟨by decide, by decide, by decide⟩

/-! ### Boundary Calculator (claim C1) -/

theorem pairwise_id_inj {l : List AlignedWord}
    (h : List.Pairwise (fun a b => a.id < b.id) l) :
    ∀ x ∈ l, ∀ y ∈ l, x.id = y.id → x = y := by
  induction l with
  | nil => intro x hx; simp at hx
  | cons a l' ih =>
    intro x hx y hy he
    rcases List.pairwise_cons.mp h with ⟨ha, hp⟩
    rcases List.mem_cons.mp hx with rfl | hx'
    · rcases List.mem_cons.mp hy with rfl | hy'
      · rfl
      · exact absurd he (by have := ha y hy'; omega)
    · rcases List.mem_cons.mp hy with rfl | hy'
      · exact absurd he (by have := ha x hx'; omega)
      · exact ih hp x hx' y hy' he

theorem find_unique_id (l : List AlignedWord) (w : AlignedWord)
    (hinj : ∀ x ∈ l, ∀ y ∈ l, x.id = y.id → x = y) (hw : w ∈ l) :
    l.find? (fun x => x.id == w.id) = some w := by
  induction l with
  | nil => simp at hw
  | cons a l' ih =>
    by_cases ha : a.id = w.id
    · have : a = w := hinj a (List.mem_cons_self _ _) w hw ha
      rw [List.find?_cons_of_pos _ (by simpa using ha), this]
    · have hw' : w ∈ l' := by
        rcases List.mem_cons.mp hw with rfl | h
        · exact absurd rfl ha
        · exact h
      rw [List.find?_cons_of_neg _ (by simpa using ha)]
      exact ih (fun x hx y hy => hinj x (List.mem_cons_of_mem _ hx) y
        (List.mem_cons_of_mem _ hy)) hw'

/-- With strictly increasing ids, the `word_id_map` lookup resolves an id
occurring in the list to its unique carrier. -/
theorem wordById_of_get (allWords : List AlignedWord) (i : Nat) (w : AlignedWord)
    (hsort : List.Pairwise (fun a b => a.id < b.id) allWords)
    (hi : allWords.get? i = some w) :
    wordById allWords w.id = some w := by
  unfold wordById
  have hinj := pairwise_id_inj hsort
  refine find_unique_id allWords.reverse w ?_ ?_
  · intro x hx y hy
    exact hinj x (List.mem_reverse.mp hx) y (List.mem_reverse.mp hy)
  · exact List.mem_reverse.mpr (List.get?_mem hi)

theorem findIdx?_unique_id :
    ∀ (l : List AlignedWord) (w : AlignedWord) (i i0 : Nat),
      List.Pairwise (fun a b => a.id < b.id) l →
      l.get? i = some w →
      l.findIdx? (fun x => x.id == w.id) i0 = some (i0 + i) := by
  intro l
  induction l with
  | nil => intro w i i0 _ h; simp at h
  | cons a l' ih =>
    intro w i i0 hsort hi
    rcases List.pairwise_cons.mp hsort with ⟨ha, hp⟩
    cases i with
    | zero =>
      have : a = w := by simpa using hi
      rw [List.findIdx?_cons, if_pos (by simp [this])]
      simp
    | succ k =>
      have hw' : l'.get? k = some w := by simpa using hi
      have hne : ¬ a.id = w.id := by
        have hmem : w ∈ l' := List.get?_mem hw'
        have := ha w hmem
        omega
      rw [List.findIdx?_cons, if_neg (by simpa using hne),
        ih w k (i0 + 1) hp hw']
      congr 1
      omega

/-- With strictly increasing ids, the linear index scan resolves an id
occurring in the list to its position. -/
theorem indexOfId_of_get (allWords : List AlignedWord) (i : Nat) (w : AlignedWord)
    (hsort : List.Pairwise (fun a b => a.id < b.id) allWords)
    (hi : allWords.get? i = some w) :
    indexOfId allWords w.id = (i : ℤ) := by
  unfold indexOfId
  rw [show allWords.findIdx? (fun x => x.id == w.id) =
    allWords.findIdx? (fun x => x.id == w.id) 0 from rfl]
  rw [findIdx?_unique_id allWords w i 0 hsort hi]
  simp

/-- C1 (amended): the Boundary Calculator's rule as implemented.  Start
time: if `backward_invasion > 0` and the word positionally preceding the
run's first word carries phoneme data, start = (end of that word's last
phoneme) - (its duration x the factor); if `backward_invasion > 0`
otherwise (no preceding word, or no phoneme data on it), start = the run's
first word's own start (not the midpoint, and not 0); if
`backward_invasion = 0`, start = midpoint of the previous word's end and
the run's first word's start when a previous word exists, else 0.  The end
time is symmetric via the following word, its first phoneme and
`forward_invasion`, with the run's last word's end as the fallback. -/
theorem getCutBoundaries_spec (allWords : List AlignedWord) (seg : List Nat)
    (bwd fwd : ℚ) (i j : Nat) (firstW lastW : AlignedWord)
    (hsort : List.Pairwise (fun a b => a.id < b.id) allWords)
    (hi : allWords.get? i = some firstW) (hj : allWords.get? j = some lastW)
    (hfid : seg.head? = some firstW.id) (hlid : seg.getLast? = some lastW.id) :
    getCutBoundaries seg allWords bwd fwd = some (
      (if 0 < bwd then
        match prevWordAt allWords (i : ℤ) with
        | some prev =>
          match prev.phonemes.getLast? with
          | some ph => ph.«end» - (ph.«end» - ph.start) * bwd
          | none => firstW.start
        | none => firstW.start
      else
        match prevWordAt allWords (i : ℤ) with
        | some prev => (prev.«end» + firstW.start) / 2
        | none => 0),
      (if 0 < fwd then
        match nextWordAt allWords (j : ℤ) with
        | some next =>
          match next.phonemes.head? with
          | some ph => ph.start + (ph.«end» - ph.start) * fwd
          | none => lastW.«end»
        | none => lastW.«end»
      else
        match nextWordAt allWords (j : ℤ) with
        | some next => (lastW.«end» + next.start) / 2
        | none => lastW.«end»)) := by
  unfold getCutBoundaries
  rw [hfid, hlid]
  simp only [Option.bind_eq_bind, Option.some_bind]
  rw [wordById_of_get allWords i firstW hsort hi,
    wordById_of_get allWords j lastW hsort hj]
  simp only [Option.some_bind]
  rw [indexOfId_of_get allWords i firstW hsort hi,
    indexOfId_of_get allWords j lastW hsort hj]
  simp only [qadd_eq, qsub_eq, qmul_eq, qdiv_eq]
  rfl

/-- Witness for C1 (amended) at the spec's scenario: run `[1]`, both
factors 0, word 0 ending at 0.3 and word 2 starting at 0.6 give the
boundary `(0.3, 0.6)`. -/
theorem getCutBoundaries_spec_witness :
    getCutBoundaries [1] mfaRT 0 0 = some ((3/10 : ℚ), (3/5 : ℚ)) := by
  have h := getCutBoundaries_spec mfaRT [1] 0 0 1 1
    ⟨1, 3/10, 3/5, [], some true⟩ ⟨1, 3/10, 3/5, [], some true⟩
    (by decide) rfl rfl rfl rfl
  rw [h]
  norm_num [prevWordAt, nextWordAt, mfaRT, List.get?]

/-- Counterexample to C1 as stated: with `backward_invasion = 1/2 > 0` and
a preceding word (`[0.1, 0.2]`) that has no phoneme data, the code sets the
start to the run's first word's own start `0.4`, not to the claimed
midpoint `(0.2 + 0.4) / 2 = 0.3`. -/
theorem getCutBoundaries_counterexample :
    (getCutBoundaries [1] mfaD (mkRat 1 2) 0).map Prod.fst = some (mkRat 2 5) ∧
    (mkRat 2 5 : ℚ) ≠ (mkRat 1 5 + mkRat 2 5) / 2 := by
  constructor
  · decide
  · rw [show (mkRat 1 5 : ℚ) = 1/5 from by norm_num [Rat.mkRat_eq_divInt,
      Rat.divInt_eq_div], show (mkRat 2 5 : ℚ) = 2/5 from by
      norm_num [Rat.mkRat_eq_divInt, Rat.divInt_eq_div]]
    norm_num

/-! ### Invalid splice ranges (claim C4) -/

/-- C4 (amended): the Splice Synthesizer never rejects a cut for an invalid
splice range.  Whenever `AudioEditorService.run` returns a (non-null)
result, each of the three variant audios is `_perform_direct_cut` applied
to the original chunk at that variant's recorded relative timestamps, and
`_perform_direct_cut` on an invalid range (start below 0, end past the
clip, or start at or past end) returns the clip unchanged - so an invalid
splice range yields the original chunk inside a non-null result rather
than null. -/
theorem runEditor_invalid_range (bwd fwd : ℚ) (ids : List Nat) (fa y : List ℚ)
    (sr : Nat) (mfa : List AlignedWord) (sp : List ℚ) (r : EditResult)
    (hr : runEditor bwd fwd ids fa y sr mfa sp = some r) :
    (r.natural_cut_audio = performDirectCut r.original_audio
        r.metadata.natural_cut_timestamps_relative.1
        r.metadata.natural_cut_timestamps_relative.2 ∧
      r.backward_invasion_audio = performDirectCut r.original_audio
        r.metadata.backward_invasion_timestamps_relative.1
        r.metadata.backward_invasion_timestamps_relative.2 ∧
      r.forward_invasion_audio = performDirectCut r.original_audio
        r.metadata.forward_invasion_timestamps_relative.1
        r.metadata.forward_invasion_timestamps_relative.2) ∧
    ∀ (audio : List ℚ) (s e : ℚ),
      (pyTrunc (qmul s 1000) < 0 ∨ (audio.length : ℤ) < pyTrunc (qmul e 1000) ∨
        pyTrunc (qmul e 1000) ≤ pyTrunc (qmul s 1000)) →
      performDirectCut audio s e = audio := by
  constructor
  · unfold runEditor at hr
    simp only [Option.bind_eq_bind, Option.bind_eq_some] at hr
    obtain ⟨a1, h1, a2, h2, a3, h3, a4, h4, ⟨s5, e5⟩, h5, ⟨s6, e6⟩, h6,
      ⟨s7, e7⟩, h7, hr⟩ := hr
    cases hr
    exact ⟨rfl, rfl, rfl⟩
  · intro audio s e h
    unfold performDirectCut
    rw [if_pos h]

/-- Witness for C4 (amended) on the collapsing-midpoint scenario. -/
theorem runEditor_invalid_range_witness :
    runEditor (mkRat 4 5) (mkRat 4 5) [1] (List.replicate 2 0) (List.replicate 2 0)
      1000 mfaB [0] = some editB ∧
    editB.natural_cut_audio = performDirectCut editB.original_audio
      editB.metadata.natural_cut_timestamps_relative.1
      editB.metadata.natural_cut_timestamps_relative.2 :=
  ⟨by decide,
    (runEditor_invalid_range (mkRat 4 5) (mkRat 4 5) [1] (List.replicate 2 0)
      (List.replicate 2 0) 1000 mfaB [0] editB (by decide)).1.1⟩

/-- Counterexample to C4 as stated: cutting word 1 of the
collapsing-midpoint scenario computes an invalid natural splice range (its
end millisecond does not exceed its start millisecond), yet the editor
returns a non-null result whose natural variant is the original chunk
unchanged, instead of rejecting the cut with null. -/
theorem runEditor_invalid_range_counterexample :
    (runEditor (mkRat 4 5) (mkRat 4 5) [1] (List.replicate 2 0)
      (List.replicate 2 0) 1000 mfaB [0]).map
      (fun r => decide (pyTrunc (qmul r.metadata.natural_cut_timestamps_relative.2
          1000) ≤ pyTrunc (qmul r.metadata.natural_cut_timestamps_relative.1 1000)) &&
        (r.natural_cut_audio == r.original_audio) && !(r.original_audio == [])) =
      some true ∧
    runEditor (mkRat 4 5) (mkRat 4 5) [1] (List.replicate 2 0)
      (List.replicate 2 0) 1000 mfaB [0] ≠ none := by
  constructor
  · decide
  · decide

/-! ### Variant construction (claim C5) -/

/-- C5 (amended): no fixed-duration context windows exist.  Whenever
`AudioEditorService.run` returns a result, the original chunk is the slice
of the full recording between the recorded chunk boundaries (the nearest
eligible split points around the cut's context words), and on a valid
splice range `_perform_direct_cut` builds each variant as ALL of the
chunk's audio before the cut start concatenated with ALL of it after the
cut end - the context extent is bounded by the split points, not by a
configurable 3000 ms window clamped to file bounds. -/
theorem runEditor_context_chunk (bwd fwd : ℚ) (ids : List Nat) (fa y : List ℚ)
    (sr : Nat) (mfa : List AlignedWord) (sp : List ℚ) (r : EditResult)
    (hr : runEditor bwd fwd ids fa y sr mfa sp = some r) :
    r.original_audio = pySlice fa (pyTrunc (qmul r.metadata.chunk_start_s_abs 1000))
        (pyTrunc (qmul r.metadata.chunk_end_s_abs 1000)) ∧
    ∀ (audio : List ℚ) (s e : ℚ),
      0 ≤ pyTrunc (qmul s 1000) →
      pyTrunc (qmul e 1000) ≤ (audio.length : ℤ) →
      pyTrunc (qmul s 1000) < pyTrunc (qmul e 1000) →
      performDirectCut audio s e =
        audio.take (pyTrunc (qmul s 1000)).toNat ++
          audio.drop (pyTrunc (qmul e 1000)).toNat := by
  constructor
  · unfold runEditor at hr
    simp only [Option.bind_eq_bind, Option.bind_eq_some] at hr
    obtain ⟨a1, h1, a2, h2, a3, h3, a4, h4, ⟨s5, e5⟩, h5, ⟨s6, e6⟩, h6,
      ⟨s7, e7⟩, h7, hr⟩ := hr
    cases hr
    rfl
  · intro audio s e hs he hlt
    unfold performDirectCut
    rw [if_neg (by omega)]
    unfold pySlice
    have h0 : pyIdx audio.length 0 = 0 := by unfold pyIdx; simp
    have hsm : pyIdx audio.length (pyTrunc (qmul s 1000)) =
        (pyTrunc (qmul s 1000)).toNat := by
      unfold pyIdx; rw [if_neg (by omega)]; omega
    have hem : pyIdx audio.length (pyTrunc (qmul e 1000)) =
        (pyTrunc (qmul e 1000)).toNat := by
      unfold pyIdx; rw [if_neg (by omega)]; omega
    have hlen : pyIdx audio.length (audio.length : ℤ) = audio.length := by
      unfold pyIdx; rw [if_neg (by omega)]; omega
    rw [h0, hsm, hem, hlen, List.drop_zero, List.take_length]

/-- Witness for C5 (amended) on the `mfaC` scenario. -/
theorem runEditor_context_chunk_witness :
    runEditor (mkRat 4 5) (mkRat 4 5) [2] (List.replicate 100 0)
      (List.replicate 100 0) 1000 mfaC [30, 70] = some editC ∧
    editC.original_audio = pySlice (List.replicate 100 0)
      (pyTrunc (qmul editC.metadata.chunk_start_s_abs 1000))
      (pyTrunc (qmul editC.metadata.chunk_end_s_abs 1000)) :=
  ⟨by decide,
    (runEditor_context_chunk (mkRat 4 5) (mkRat 4 5) [2] (List.replicate 100 0)
      (List.replicate 100 0) 1000 mfaC [30, 70] editC (by decide)).1⟩

/-- Counterexample to C5 as stated: on the `mfaC` scenario the natural cut
is snapped to the absolute range 42-52 ms; the emitted natural variant is
the 40 ms split-point chunk minus that range (30 frames), while the spec's
construction - a 3000 ms context window before the snapped start
concatenated with one after the snapped end, clamped to the 100 ms file -
would have 90 frames. -/
theorem runEditor_context_chunk_counterexample :
    (runEditor (mkRat 4 5) (mkRat 4 5) [2] (List.replicate 100 0)
      (List.replicate 100 0) 1000 mfaC [30, 70]).map
      (fun r => (pyTrunc (qmul (qadd r.metadata.chunk_start_s_abs
          r.metadata.natural_cut_timestamps_relative.1) 1000),
        pyTrunc (qmul (qadd r.metadata.chunk_start_s_abs
          r.metadata.natural_cut_timestamps_relative.2) 1000),
        r.natural_cut_audio.length)) = some (42, 52, 30) ∧
    (specContextWindowVariant (List.replicate 100 0) 3000 42 52).length = 90 ∧
    (30 : Nat) ≠ 90 := by
  refine ⟨by decide, by decide, by decide⟩

/-! ### The usability flag (claim C6) -/

/-- C6 (amended): whenever the per-cut loop of `PipelineOrchestrator.run`
emits a dataset entry, its chunk words are the transcript words lying
inside the chunk's time span, and `is_usable` is true iff EVERY chunk word
whose id resolves in the MFA data carries a reliable-timestamp flag that is
true or absent (absent defaulting to reliable) - the quantification ranges
over all words of the chunk, not over the four-word set {run endpoints,
adjacent predecessor, adjacent successor}; a valid entry is still produced
when the flag is false. -/
theorem processCut_usable (ctx : PipelineCtx) (i : Nat) (cut : List Nat)
    (e : DatasetEntry) (he : processCut ctx i cut = some e) :
    e.chunk_words = chunkWordsOf ctx.scribeWords e.edit.metadata.chunk_start_s_abs
      e.edit.metadata.chunk_end_s_abs ∧
    (e.is_usable = true ↔ ∀ w ∈ e.chunk_words,
      ∀ m, ctx.mfa_data.find? (fun x => x.id == w.id) = some m →
        m.is_timestamp_reliable.getD true = true) := by
  unfold processCut at he
  split at he
  · exact absurd he (by simp)
  · split at he
    · exact absurd he (by simp)
    · cases he
      refine ⟨rfl, ?_⟩
      show computeIsUsable _ _ = true ↔ _
      unfold computeIsUsable
      rw [List.all_eq_true]
      constructor
      · intro h w hw m hm
        have hx := h w hw
        rw [hm] at hx
        exact hx
      · intro h w hw
        cases hfind : ctx.mfa_data.find? (fun x => x.id == w.id) with
        | none => simp [hfind]
        | some m =>
          simp only [hfind]
          exact h w hw m hfind

/-- Witness for C6 (amended) on the `ctxA` scenario. -/
theorem processCut_usable_witness :
    processCut ctxA 0 [2] = some entryA ∧
    entryA.chunk_words = chunkWordsOf ctxA.scribeWords
      entryA.edit.metadata.chunk_start_s_abs entryA.edit.metadata.chunk_end_s_abs :=
  ⟨by decide, (processCut_usable ctxA 0 [2] entryA (by decide)).1⟩

/-- Counterexample to C6 as stated: cutting word 2 of the `ctxA` scenario,
every word of the set {run first word, run last word, predecessor,
successor} = {1, 2, 3} is reliable (so the claimed rule says usable), yet
the entry the loop produces carries `is_usable = false`, because word 4 -
outside that set but inside the chunk - has an unreliable timestamp. -/
theorem processCut_usable_counterexample :
    specUsableRule ctxA.mfa_data [2] = true ∧
    (processCut ctxA 0 [2]).map DatasetEntry.is_usable = some false := by
  exact ⟨by decide, by decide⟩

/-! ### Missing word references (claim C7) -/

/-- C7: if a cut's first or last word id is absent from the aligned-word
lookup, `AudioEditorService.run` returns null for that cut (the `KeyError`
is caught, no exception escapes), and the orchestrator's per-cut loop
emits nothing for it and continues with the remaining cuts of the
recording exactly as it would have without this cut. -/
theorem runEditor_missing_id (ctx : PipelineCtx) (cut : List Nat)
    (hm : cut.head?.bind (wordById ctx.mfa_data) = none ∨
      cut.getLast?.bind (wordById ctx.mfa_data) = none) :
    runEditor ctx.bwdInvasion ctx.fwdInvasion cut ctx.full_audio ctx.y_full ctx.sr
      ctx.mfa_data ctx.splitPointsMs = none ∧
    ∀ (i : Nat) (post : List (List Nat)),
      processCuts ctx i (cut :: post) = processCuts ctx (i + 1) post := by
  have hrun : runEditor ctx.bwdInvasion ctx.fwdInvasion cut ctx.full_audio
      ctx.y_full ctx.sr ctx.mfa_data ctx.splitPointsMs = none := by
    unfold runEditor
    simp only [Option.bind_eq_bind]
    cases hh : cut.head? with
    | none => simp
    | some fid =>
      cases hl : cut.getLast? with
      | none => simp
      | some lid =>
        rcases hm with hm | hm
        · rw [hh] at hm
          simp only [Option.some_bind] at hm
          simp [hm]
        · rw [hl] at hm
          simp only [Option.some_bind] at hm
          cases hf : wordById ctx.mfa_data fid <;> simp [hf, hm]
  refine ⟨hrun, ?_⟩
  intro i post
  have hpc : processCut ctx i cut = none := by
    unfold processCut
    split
    · rfl
    · rw [hrun]
  conv_lhs => unfold processCuts
  rw [hpc]

/-- Witness for C7: cut `[99]` references an id absent from `mfaA`; the
editor returns null on it and the loop over `[[99], [2]]` continues as the
loop over `[[2]]`. -/
theorem runEditor_missing_id_witness :
    runEditor ctxA.bwdInvasion ctxA.fwdInvasion [99] ctxA.full_audio ctxA.y_full
      ctxA.sr ctxA.mfa_data ctxA.splitPointsMs = none ∧
    processCuts ctxA 0 [[99], [2]] = processCuts ctxA 1 [[2]] := by
  have h := runEditor_missing_id ctxA [99] (Or.inl (by decide))
  exact ⟨h.1, h.2 0 [[2]]⟩

/-! ### The invasion factors are fixed (claim C8) -/

/-- C8 (amended): the invasion factors are not random.
`AudioEditorService.__init__` reads
`editing.backward/forward_phoneme_invasion_factor` once from the config
(default 0.8) and `run` reuses those same two values for every cut: for
any one configuration `(bwd, fwd)`, every successful run's
backward-invasion timestamps are the snapped boundary computed by
`_get_cut_boundaries` with exactly `(bwd, 0)`, and its forward-invasion
timestamps the one computed with exactly `(0, fwd)` - the same factors
for every cut and variant of the recording, with no random draw
anywhere. -/
theorem runEditor_fixed_invasion (bwd fwd : ℚ) (ids : List Nat) (fa y : List ℚ)
    (sr : Nat) (mfa : List AlignedWord) (sp : List ℚ) (r : EditResult)
    (bs be fs fe : ℚ)
    (hr : runEditor bwd fwd ids fa y sr mfa sp = some r)
    (hb : getCutBoundaries ids mfa bwd 0 = some (bs, be))
    (hf : getCutBoundaries ids mfa 0 fwd = some (fs, fe)) :
    r.metadata.backward_invasion_timestamps_relative =
      (qsub (qdiv (intQ (findOutwardZeroCrossing y (pyTrunc (qmul bs (natQ sr)))
          Direction.backward)) (natQ sr)) r.metadata.chunk_start_s_abs,
        qsub (qdiv (intQ (findOutwardZeroCrossing y (pyTrunc (qmul be (natQ sr)))
          Direction.forward)) (natQ sr)) r.metadata.chunk_start_s_abs) ∧
    r.metadata.forward_invasion_timestamps_relative =
      (qsub (qdiv (intQ (findOutwardZeroCrossing y (pyTrunc (qmul fs (natQ sr)))
          Direction.backward)) (natQ sr)) r.metadata.chunk_start_s_abs,
        qsub (qdiv (intQ (findOutwardZeroCrossing y (pyTrunc (qmul fe (natQ sr)))
          Direction.forward)) (natQ sr)) r.metadata.chunk_start_s_abs) := by
  unfold runEditor at hr
  simp only [Option.bind_eq_bind, Option.bind_eq_some] at hr
  obtain ⟨a1, h1, a2, h2, a3, h3, a4, h4, ⟨s5, e5⟩, h5, ⟨s6, e6⟩, h6,
    ⟨s7, e7⟩, h7, hr⟩ := hr
  rw [hb] at h6
  rw [hf] at h7
  simp only [Option.some.injEq, Prod.mk.injEq] at h6 h7
  obtain ⟨rfl, rfl⟩ := h6
  obtain ⟨rfl, rfl⟩ := h7
  cases hr
  exact ⟨rfl, rfl⟩

/-- Witness for C8 (amended): cutting word 2 of `mfaA` with the two factors
configured at 0.8, the backward-invasion start is the snapped image of the
boundary `_get_cut_boundaries` computes with factor exactly 0.8, namely
0.0012 s (word 1's phoneme end 0.002 minus 0.8 of its 0.001 duration). -/
theorem runEditor_fixed_invasion_witness :
    runEditor (mkRat 4 5) (mkRat 4 5) [2] (List.replicate 6 0)
      (List.replicate 60 0) 10000 mfaA [0] = some editD ∧
    editD.metadata.backward_invasion_timestamps_relative =
      (qsub (qdiv (intQ (findOutwardZeroCrossing (List.replicate 60 0)
          (pyTrunc (qmul (mkRat 3 2500) (natQ 10000))) Direction.backward))
          (natQ 10000)) editD.metadata.chunk_start_s_abs,
        qsub (qdiv (intQ (findOutwardZeroCrossing (List.replicate 60 0)
          (pyTrunc (qmul (mkRat 3 1000) (natQ 10000))) Direction.forward))
          (natQ 10000)) editD.metadata.chunk_start_s_abs) := by
  refine ⟨by decide, ?_⟩
  exact (runEditor_fixed_invasion (mkRat 4 5) (mkRat 4 5) [2] (List.replicate 6 0)
    (List.replicate 60 0) 10000 mfaA [0] editD (mkRat 3 2500) (mkRat 3 1000)
    (mkRat 1 500) (mkRat 19 5000) (by decide) (by decide) (by decide)).1

/-- Counterexample to C8 as stated: two different cuts of the same
recording under the same configuration both use exactly the configured
factor 0.8 - cut `[2]` lands its backward boundary at 0.0012 s (from word
1's phonemes) and cut `[4]` at 0.0032 s (from word 3's phonemes), and
solving each boundary back for the factor yields 0.8 both times; nothing
is re-sampled per cut or per variant. -/
theorem runEditor_fixed_invasion_counterexample :
    (runEditor (mkRat 4 5) (mkRat 4 5) [2] (List.replicate 6 0)
      (List.replicate 60 0) 10000 mfaA [0]).map
      (fun r => r.metadata.backward_invasion_timestamps_relative.1) =
      some (mkRat 3 2500) ∧
    (runEditor (mkRat 4 5) (mkRat 4 5) [4] (List.replicate 6 0)
      (List.replicate 60 0) 10000 mfaA [0]).map
      (fun r => r.metadata.backward_invasion_timestamps_relative.1) =
      some (mkRat 2 625) ∧
    qdiv (qsub (mkRat 2 1000) (mkRat 3 2500)) (qsub (mkRat 2 1000) (mkRat 1 1000)) =
      mkRat 4 5 ∧
    qdiv (qsub (mkRat 4 1000) (mkRat 2 625)) (qsub (mkRat 4 1000) (mkRat 3 1000)) =
      mkRat 4 5 := by
  exact ⟨by decide, by decide, by decide, by decide⟩

example : findOutwardZeroCrossing [1, 2, -1, 3] 3 Direction.backward = 3 := by decide
example : findOutwardZeroCrossing [1, 2, 2, 3] 1 Direction.forward = 3 := by decide
example : findOutwardZeroCrossing [1, 2, 0, 3] 2 Direction.forward = 2 := by decide
example : findOutwardZeroCrossing [1, 2, 0, 3] 9 Direction.backward = 3 := by decide
example : findOutwardZeroCrossing [1, 2, 0, 3] (-7) Direction.forward = 0 := by decide
